import Mathlib

/-!
# terminal-ia: the session controller, the command sanitizer and model selection

A shallow embedding of `src/main.go`.

Go strings are modelled as lists of Unicode code points (the text is taken to
be valid UTF-8), so `strings.HasPrefix`, `strings.TrimPrefix`,
`strings.TrimSuffix` and `strings.TrimSpace` become list operations.
The external collaborators (standard input, the Ollama client, the shell
interpreter, the process directory) are modelled by a `World` value that holds
the answers they will give, in the order in which the program asks for them;
every call the program makes to a collaborator is recorded as an `Event`.
Presentation (logo, screen clearing, prompt text) is left out.
-/

namespace TerminalIA

/-- A Go string, as its sequence of code points. -/
abbrev Str := List Char

/-! ## The `strings` and `unicode` helpers used by the program -/

/-- Go `unicode.IsSpace`: the Latin-1 spaces and the other code points with the
White_Space property. -/
def isSpace (c : Char) : Bool :=
  let n := c.toNat
  (0x09 ≤ n && n ≤ 0x0D) || n == 0x20 || n == 0x85 || n == 0xA0 || n == 0x1680 ||
  (0x2000 ≤ n && n ≤ 0x200A) || n == 0x2028 || n == 0x2029 || n == 0x202F ||
  n == 0x205F || n == 0x3000

/-- Go `strings.TrimSpace`: drop the leading and the trailing white space. -/
def trimSpace (s : Str) : Str :=
  (s.dropWhile isSpace).rdropWhile isSpace

/-- Go `strings.HasPrefix`. -/
def hasPrefix (s pre : Str) : Bool :=
  pre.isPrefixOf s

/-- Go `strings.HasSuffix`. -/
def hasSuffix (s suf : Str) : Bool :=
  suf.isSuffixOf s

/-- Go `strings.TrimPrefix`: remove `pre` from the front once, when it is there. -/
def trimPrefix (s pre : Str) : Str :=
  if hasPrefix s pre then s.drop pre.length else s

/-- Go `strings.TrimSuffix`: remove `suf` from the back once, when it is there. -/
def trimSuffix (s suf : Str) : Str :=
  if hasSuffix s suf then s.take (s.length - suf.length) else s

/-- Lower-casing of one code point on the ASCII letters. -/
def lowerChar (c : Char) : Char :=
  if 0x41 ≤ c.toNat ∧ c.toNat ≤ 0x5A then Char.ofNat (c.toNat + 32) else c

/-- Go `strings.ToLower`, on its ASCII mapping (no code point outside ASCII is
mapped to an ASCII letter `s` or `x` by the full Unicode mapping either). -/
def toLower (s : Str) : Str :=
  s.map lowerChar

/-! ## The command sanitizer (`sanitizeIACommand`, main.go 285-303) -/

/-- The single backtick. -/
def tick : Str := "`".toList

/-- The triple-backtick fence. -/
def fence : Str := "```".toList

/-- The `bash` language-tag line. -/
def bashTag : Str := "bash\n".toList

/-- The `sh` language-tag line. -/
def shTag : Str := "sh\n".toList

/-- Translation of `sanitizeIACommand`. -/
def sanitizeIACommand (rawCmd : Str) : Str :=
  let cmd := trimSpace rawCmd
  if hasPrefix cmd tick && hasSuffix cmd tick then
    let cmd := trimPrefix cmd tick
    let cmd := trimSuffix cmd tick
    trimSpace cmd
  else if hasPrefix cmd fence && hasSuffix cmd fence then
    let cmd := trimPrefix cmd fence
    let cmd := trimSuffix cmd fence
    let cmd :=
      if hasPrefix cmd bashTag then trimPrefix cmd bashTag
      else if hasPrefix cmd shTag then trimPrefix cmd shTag
      else cmd
    trimSpace cmd
  else
    cmd

/-! ## Collaborators: standard input, the model backend, the shell, the process -/

/-- Diagnostics the program shows to the user. -/
inductive Msg where
  | invalidSelection
  | warmUpFailed
  | homeDirError
  | chdirError
  | autoOff
  | emptyPrompt
  | backendError
  | suggested (cmd : Str)
  | commandFailed
  | autoOn
  | cancelled
  deriving DecidableEq, Repr

/-- The calls the program makes to its collaborators. A read carries the line
delivered by the scanner, `none` when `scanner.Scan()` returns false. -/
inductive Event where
  | readInput (line : Option Str)
  | readSelection (line : Option Str)
  | readConfirm (line : Option Str)
  | listModels
  | generate (model prompt : Str)
  | chdir (dir : Str)
  | exec (cmd : Str)
  | say (m : Msg)
  deriving DecidableEq, Repr

/-- The answers the collaborators will give, each list in the order of the
calls: lines of standard input, the home directory, the results of
`client.List` (`none` is an error), the results of `client.Generate`, whether
each shell run succeeds, whether each `os.Chdir` succeeds. -/
structure World where
  stdin : List Str
  home : Option Str
  lists : List (Option (List Str))
  gens : List (Option Str)
  runs : List Bool
  chdirs : List Bool
  deriving DecidableEq, Repr

/-- One `scanner.Scan()` followed by `scanner.Text()`. -/
def World.scan (w : World) : Option Str × World :=
  match w.stdin with
  | [] => (none, w)
  | l :: ls => (some l, { w with stdin := ls })

/-- One `client.List` call; `none` is an error. -/
def World.list (w : World) : Option (List Str) × World :=
  match w.lists with
  | [] => (none, w)
  | r :: rs => (r, { w with lists := rs })

/-- One `client.Generate` call; `none` is an error. -/
def World.generate (w : World) : Option Str × World :=
  match w.gens with
  | [] => (none, w)
  | r :: rs => (r, { w with gens := rs })

/-- One `cmd.Run()`; `true` when the command succeeded. -/
def World.run (w : World) : Bool × World :=
  match w.runs with
  | [] => (false, w)
  | r :: rs => (r, { w with runs := rs })

/-- One `os.Chdir`; `true` when it succeeded. -/
def World.changeDir (w : World) : Bool × World :=
  match w.chdirs with
  | [] => (false, w)
  | r :: rs => (r, { w with chdirs := rs })

/-- How a piece of the program ended: normally, by `log.Fatal`, or by a
run-time panic (index out of range). -/
inductive Outcome (α : Type) where
  | ok (a : α)
  | fatal
  | panicked
  deriving DecidableEq, Repr

/-- A value together with the world left behind and the calls made. -/
structure Ret (α : Type) where
  val : α
  world : World
  events : List Event
  deriving DecidableEq, Repr

/-! ## `strconv.Atoi` -/

/-- Value of a decimal digit. -/
def digitVal (c : Char) : Option Nat :=
  if 0x30 ≤ c.toNat ∧ c.toNat ≤ 0x39 then some (c.toNat - 0x30) else none

/-- Value of a string of decimal digits read after the value `acc`. -/
def parseDigits : Nat → Str → Option Nat
  | acc, [] => some acc
  | acc, c :: cs =>
    match digitVal c with
    | none => none
    | some d => parseDigits (acc * 10 + d) cs

/-- Go `strconv.Atoi` for a 64-bit `int`: an optional sign, then one or more
decimal digits; `none` stands for a syntax or range error. -/
def atoi (s : Str) : Option Int :=
  match s with
  | [] => none
  | c :: rest =>
    let digits := if c = '-' ∨ c = '+' then rest else s
    if digits = [] then none
    else
      match parseDigits 0 digits with
      | none => none
      | some n =>
        let v : Int := if c = '-' then -(n : Int) else (n : Int)
        if -(2 : Int) ^ 63 ≤ v ∧ v ≤ (2 : Int) ^ 63 - 1 then some v else none

/-! ## Model warm-up and model selection (main.go 105-152) -/

/-- The warm-up prompt. -/
def hola : Str := "hola".toList

/-- Translation of `warmUpModel`: one generation call whose failure is only
reported. -/
def warmUpModel (w : World) (modelName : Str) : Ret Unit :=
  match w.generate with
  | (none, w1) => ⟨(), w1, [.generate modelName hola, .say .warmUpFailed]⟩
  | (some _, w1) => ⟨(), w1, [.generate modelName hola]⟩

/-- The selection loop of `chooseModel` (main.go 138-150) over the lines still
on standard input, for a list of `n` models: the accepted `choice` (`none` when
`scanner.Scan()` fails, which is `log.Fatal`), the lines left, the calls made. -/
def readChoice (n : Nat) : List Str → Option Int × List Str × List Event
  | [] => (none, [], [.readSelection none])
  | input :: rest =>
    let reprompt :=
      let r := readChoice n rest
      (r.1, r.2.1, .readSelection (some input) :: .say .invalidSelection :: r.2.2)
    match atoi input with
    | none => reprompt
    | some choice =>
      if choice < 1 ∨ choice > (n : Int) then reprompt
      else (some choice, rest, [.readSelection (some input)])

/-- Translation of `chooseModel`. -/
def chooseModel (w : World) : Ret (Outcome Str) :=
  match w.list with
  | (none, w1) => ⟨.fatal, w1, [.listModels]⟩
  | (some models, w1) =>
    if models.length = 0 then ⟨.fatal, w1, [.listModels]⟩
    else
      match readChoice models.length w1.stdin with
      | (none, rest, evs) => ⟨.fatal, { w1 with stdin := rest }, .listModels :: evs⟩
      | (some choice, rest, evs) =>
        let w2 := { w1 with stdin := rest }
        if choice - 1 < 0 then ⟨.panicked, w2, .listModels :: evs⟩
        else
          match models[(choice - 1).toNat]? with
          | none => ⟨.panicked, w2, .listModels :: evs⟩
          | some name => ⟨.ok name, w2, .listModels :: evs⟩

/-! ## Translation handling (main.go 304-409) -/

/-- The fixed instruction preamble. -/
def systemPrompt : Str :=
  ("Eres un experto en terminal de Linux y shell.\n" ++
   "\tTraduce la siguiente petición de lenguaje natural a un ÚNICO comando de shell.\n" ++
   "\tResponde SÓLO con el comando y nada más. No uses markdown, ni explicaciones.\n" ++
   "\tPetición: ").toList

/-- Run a command through the shell (main.go 331-336, 381-386, 395-400): the
call, and the report when it failed. -/
def runShell (w : World) (cmd : Str) : Ret Unit :=
  match w.run with
  | (true, w1) => ⟨(), w1, [.exec cmd]⟩
  | (false, w1) => ⟨(), w1, [.exec cmd, .say .commandFailed]⟩

/-- Translation of `handleIACommandAuto`. -/
def handleIACommandAuto (w : World) (modelName userPrompt : Str) : Ret Unit :=
  let fullPrompt := systemPrompt ++ userPrompt
  match w.generate with
  | (none, w1) => ⟨(), w1, [.generate modelName fullPrompt, .say .backendError]⟩
  | (some response, w1) =>
    let comandoSugerido := sanitizeIACommand response
    let r := runShell w1 comandoSugerido
    ⟨(), r.world, .generate modelName fullPrompt :: r.events⟩

/-- Translation of `handleIACommandConfirm`; the value is the returned
boolean. -/
def handleIACommandConfirm (w : World) (modelName userPrompt : Str) : Ret Bool :=
  let fullPrompt := systemPrompt ++ userPrompt
  match w.generate with
  | (none, w1) => ⟨false, w1, [.generate modelName fullPrompt, .say .backendError]⟩
  | (some response, w1) =>
    let comandoSugerido := sanitizeIACommand response
    let shown : List Event := [.generate modelName fullPrompt, .say (.suggested comandoSugerido)]
    match w1.scan with
    | (none, w2) => ⟨false, w2, shown ++ [.readConfirm none]⟩
    | (some text, w2) =>
      let confirmacion := trimSpace text
      let d := toLower confirmacion
      if d = "s".toList then
        let r := runShell w2 comandoSugerido
        ⟨false, r.world, shown ++ .readConfirm (some text) :: r.events⟩
      else if d = "x".toList then
        let r := runShell w2 comandoSugerido
        ⟨true, r.world, shown ++ .readConfirm (some text) :: r.events ++ [.say .autoOn]⟩
      else
        ⟨false, w2, shown ++ [.readConfirm (some text), .say .cancelled]⟩

/-! ## The session controller (main.go 189-278) -/

/-- The variables of `main` that live across loop iterations. -/
structure Session where
  selectedModel : Str
  alwaysExecute : Bool
  isFirstLoop : Bool
  deriving DecidableEq, Repr

/-- Whether the loop goes on, was left by `break`, or the process ended by
`log.Fatal` or by a panic. -/
inductive Status where
  | running
  | exited
  | fatal
  | panicked
  deriving DecidableEq, Repr

/-- The result of one loop iteration. When the process ended, `session` is the
session at that moment. -/
structure StepResult where
  status : Status
  session : Session
  world : World
  events : List Event
  deriving DecidableEq, Repr

/-- The directory-change prefix. -/
def cdPrefix : Str := "cd ".toList

/-- The home-directory argument. -/
def tilde : Str := "~".toList

/-- The model-reselection marker. -/
def modelCmd : Str := "//model".toList

/-- The auto-mode-off marker. -/
def askCmd : Str := "//ask".toList

/-- The translation marker. -/
def iaPrefix : Str := "//".toList

/-- The `os.Chdir` call of the directory-change branch (main.go 234-237). -/
def doChdir (s : Session) (w : World) (read : Event) (dir : Str) : StepResult :=
  match w.changeDir with
  | (true, w1) => ⟨.running, s, w1, [read, .chdir dir]⟩
  | (false, w1) => ⟨.running, s, w1, [read, .chdir dir, .say .chdirError]⟩

/-- One iteration of the loop of `main` (main.go 192-278). -/
def loopBody (s0 : Session) (w0 : World) : StepResult :=
  let s := { s0 with isFirstLoop := false }
  match w0.scan with
  | (none, w) => ⟨.exited, s, w, [.readInput none]⟩
  | (some text, w) =>
    let read := Event.readInput (some text)
    let input := trimSpace text
    if input = [] then ⟨.running, s, w, [read]⟩
    else if hasPrefix input cdPrefix then
      let dir := trimSpace (trimPrefix input cdPrefix)
      if dir = [] ∨ dir = tilde then
        match w.home with
        | none => ⟨.running, s, w, [read, .say .homeDirError]⟩
        | some home => doChdir s w read home
      else doChdir s w read dir
    else if input = modelCmd then
      let c := chooseModel w
      match c.val with
      | .ok name =>
        let u := warmUpModel c.world name
        ⟨.running, { selectedModel := name, alwaysExecute := s.alwaysExecute, isFirstLoop := true },
          u.world, read :: c.events ++ u.events⟩
      | .fatal => ⟨.fatal, s, c.world, read :: c.events⟩
      | .panicked => ⟨.panicked, s, c.world, read :: c.events⟩
    else if input = askCmd then
      ⟨.running, { s with alwaysExecute := false }, w, [read, .say .autoOff]⟩
    else if hasPrefix input iaPrefix then
      let prompt := trimSpace (trimPrefix input iaPrefix)
      if prompt = [] then ⟨.running, s, w, [read, .say .emptyPrompt]⟩
      else if s.alwaysExecute then
        let r := handleIACommandAuto w s.selectedModel prompt
        ⟨.running, s, r.world, read :: r.events⟩
      else
        let r := handleIACommandConfirm w s.selectedModel prompt
        ⟨.running, if r.val then { s with alwaysExecute := true } else s, r.world,
          read :: r.events⟩
    else
      let r := w.run
      ⟨.running, s, r.2, [read, .exec input]⟩

/-- The session with which `main` enters its loop (main.go 189-190). -/
def initialSession (selectedModel : Str) : Session :=
  { selectedModel := selectedModel, alwaysExecute := false, isFirstLoop := true }

/-- At most `n` iterations of the loop of `main`, one list of calls per
iteration; the loop stops at the first iteration that does not leave it
running. -/
def runLoop : Nat → Session → World → StepResult × List (List Event)
  | 0, s, w => (⟨.running, s, w, []⟩, [])
  | n + 1, s, w =>
    let r := loopBody s w
    match r.status with
    | .running =>
      let rest := runLoop n r.session r.world
      (rest.1, r.events :: rest.2)
    | _ => (r, [r.events])

/-- Translation of `main` (main.go 155-280) with at most `n` loop iterations:
model selection, warm-up, then the loop; logo loading and client creation are
left out. -/
def main (n : Nat) (w : World) : StepResult × List (List Event) :=
  let c := chooseModel w
  match c.val with
  | .ok name =>
    let u := warmUpModel c.world name
    let r := runLoop n (initialSession name) u.world
    (r.1, (c.events ++ u.events) :: r.2)
  | .fatal => (⟨.fatal, initialSession [], c.world, c.events⟩, [c.events])
  | .panicked => (⟨.panicked, initialSession [], c.world, c.events⟩, [c.events])

/-! ## Observations on the recorded calls -/

/-- The commands handed to the shell, in order. -/
def execs (evs : List Event) : List Str :=
  evs.filterMap fun e => match e with
    | .exec cmd => some cmd
    | _ => none

/-- The prompts sent to the backend, in order. -/
def prompts (evs : List Event) : List Str :=
  evs.filterMap fun e => match e with
    | .generate _ prompt => some prompt
    | _ => none

/-- The directories handed to `os.Chdir`, in order. -/
def chdirs (evs : List Event) : List Str :=
  evs.filterMap fun e => match e with
    | .chdir dir => some dir
    | _ => none

/-- A confirmation was read and its trimmed, lower-cased text is `x`. -/
def acceptAlwaysEvent : Event → Bool
  | .readConfirm (some line) => toLower (trimSpace line) == "x".toList
  | _ => false

/-- An input line was read and its trimmed text is `//ask`. -/
def disableEvent : Event → Bool
  | .readInput (some line) => trimSpace line == askCmd
  | _ => false

/-- The iteration is a confirm-mode translation answered Accept-Always. -/
def isAcceptAlways (evs : List Event) : Bool :=
  evs.any acceptAlwaysEvent

/-- The iteration is the `//ask` command. -/
def isDisable (evs : List Event) : Bool :=
  evs.any disableEvent

/-- The effect of one iteration on the auto-execute flag, read from its calls. -/
def flagAfter (b : Bool) (evs : List Event) : Bool :=
  if isDisable evs then false else if isAcceptAlways evs then true else b

/-- The calls of a rejected selection line: the read and the re-prompt. -/
def reprompts (lines : List Str) : List Event :=
  lines.flatMap fun l => [.readSelection (some l), .say .invalidSelection]

/-! ## Definitions that follow the wording of the specification -/

/-- The backtick code point. -/
def tickChar : Char := Char.ofNat 96

/-- The two-case reading of the sanitizer: trim; when the trimmed text both
starts and ends with a backtick, remove one backtick from the front and (if one
remains at the end) one from the back and trim again; otherwise the trimmed
text. -/
def sanitizeTwoCase (raw : Str) : Str :=
  let cmd := trimSpace raw
  if cmd.head? = some tickChar ∧ cmd.getLast? = some tickChar then
    let front := cmd.tail
    let back := if front.getLast? = some tickChar then front.dropLast else front
    trimSpace back
  else
    cmd

/-- The classification of section 4.1 and 9 of the specification. -/
inductive InputClass where
  | directoryChange (arg : Str)
  | reselect
  | disableAuto
  | translate (userPrompt : Str)
  | rawExec (line : Str)
  deriving DecidableEq, Repr

/-- The ordered first-match classification of a trimmed input line: prefix
`cd `, then the line `//model`, then the line `//ask`, then prefix `//`, then
anything else. -/
def classify (input : Str) : InputClass :=
  if cdPrefix <+: input then .directoryChange (trimSpace (input.drop 3))
  else if input = modelCmd then .reselect
  else if input = askCmd then .disableAuto
  else if iaPrefix <+: input then .translate (trimSpace (input.drop 2))
  else .rawExec input

/-- The handling of each class as section 4.1 of the specification describes
it, for the session `s0`, the world `w` left after the input line was read, and
the record `read` of that line. -/
def handleClass (s0 : Session) (w : World) (read : Event) : InputClass → StepResult
  | .directoryChange arg =>
    let s := { s0 with isFirstLoop := false }
    if arg = [] ∨ arg = tilde then
      match w.home with
      | none => ⟨.running, s, w, [read, .say .homeDirError]⟩
      | some home => doChdir s w read home
    else doChdir s w read arg
  | .reselect =>
    let c := chooseModel w
    match c.val with
    | .ok name =>
      let u := warmUpModel c.world name
      ⟨.running, { selectedModel := name, alwaysExecute := s0.alwaysExecute, isFirstLoop := true },
        u.world, read :: c.events ++ u.events⟩
    | .fatal => ⟨.fatal, { s0 with isFirstLoop := false }, c.world, read :: c.events⟩
    | .panicked => ⟨.panicked, { s0 with isFirstLoop := false }, c.world, read :: c.events⟩
  | .disableAuto =>
    ⟨.running, { s0 with isFirstLoop := false, alwaysExecute := false }, w, [read, .say .autoOff]⟩
  | .translate userPrompt =>
    let s := { s0 with isFirstLoop := false }
    if userPrompt = [] then ⟨.running, s, w, [read, .say .emptyPrompt]⟩
    else if s0.alwaysExecute then
      let r := handleIACommandAuto w s0.selectedModel userPrompt
      ⟨.running, s, r.world, read :: r.events⟩
    else
      let r := handleIACommandConfirm w s0.selectedModel userPrompt
      ⟨.running, if r.val then { s with alwaysExecute := true } else s, r.world,
        read :: r.events⟩
  | .rawExec line =>
    ⟨.running, { s0 with isFirstLoop := false }, (w.run).2, [read, .exec line]⟩

/-- A selection line that parses as a decimal integer `k` with `1 ≤ k ≤ n`. -/
def validChoice (n : Nat) (line : Str) : Bool :=
  match atoi line with
  | some k => decide (1 ≤ k ∧ k ≤ (n : Int))
  | none => false

/-! ## Predicates used in the statements -/

/-- A text with no white space at either end. -/
def Trimmed (s : Str) : Prop :=
  (∀ c, s.head? = some c → isSpace c = false) ∧ (∀ c, s.getLast? = some c → isSpace c = false)

/-- Calls among which there is neither a `//ask` input line nor an
Accept-Always confirmation. -/
def Quiet (evs : List Event) : Prop :=
  ∀ e ∈ evs, disableEvent e = false ∧ acceptAlwaysEvent e = false

/-- The calls of the confirm variant after the suggestion was shown: `tail`
follows the read of the confirmation `text`. -/
def ConfirmTail (text cmd : Str) (val : Bool) (tail : List Event) : Prop :=
  (toLower (trimSpace text) = "s".toList ∧ val = false ∧
    (tail = [.exec cmd] ∨ tail = [.exec cmd, .say .commandFailed])) ∨
  (toLower (trimSpace text) = "x".toList ∧ val = true ∧
    (tail = [.exec cmd, .say .autoOn] ∨ tail = [.exec cmd, .say .commandFailed, .say .autoOn])) ∨
  (toLower (trimSpace text) ≠ "s".toList ∧ toLower (trimSpace text) ≠ "x".toList ∧
    val = false ∧ tail = [.say .cancelled])

/-- The auto-execute flag after a sequence of iterations, read from their
calls. -/
def flagAfterAll (b : Bool) (steps : List (List Event)) : Bool :=
  steps.foldl flagAfter b

/-! ## Facts about the string helpers -/

theorem tick_eq : tick = [tickChar] := by decide

theorem fence_eq : fence = [tickChar, tickChar, tickChar] := by decide

theorem isSpace_tickChar : isSpace tickChar = false := by decide

theorem hasPrefix_tick (s : Str) : hasPrefix s tick = true ↔ s.head? = some tickChar := by
  cases s with
  | nil => simp [hasPrefix, tick_eq, List.isPrefixOf]
  | cons a t =>
    simp only [hasPrefix, tick_eq, List.isPrefixOf, List.head?_cons, Option.some.injEq,
      Bool.and_true, beq_iff_eq]
    exact eq_comm

theorem hasSuffix_tick (s : Str) : hasSuffix s tick = true ↔ s.getLast? = some tickChar := by
  rw [← List.head?_reverse]
  cases h : s.reverse with
  | nil => simp [hasSuffix, tick_eq, List.isSuffixOf, List.isPrefixOf, h]
  | cons a t =>
    simp only [hasSuffix, tick_eq, List.isSuffixOf, h, List.reverse_cons, List.reverse_nil,
      List.nil_append, List.isPrefixOf, List.head?_cons, Option.some.injEq,
      Bool.and_true, beq_iff_eq]
    exact eq_comm

theorem dropWhile_head_not (p : Char → Bool) (s : Str) (c : Char)
    (h : (s.dropWhile p).head? = some c) : p c = false := by
  induction s with
  | nil => simp at h
  | cons a t ih =>
    by_cases ha : p a = true
    · rw [List.dropWhile_cons_of_pos ha] at h
      exact ih h
    · rw [List.dropWhile_cons_of_neg ha] at h
      simp at h
      subst h
      simpa using ha

theorem rdropWhile_getLast_not (p : Char → Bool) (s : Str) (c : Char)
    (h : (s.rdropWhile p).getLast? = some c) : p c = false := by
  have hne : s.rdropWhile p ≠ [] := by
    intro h0
    rw [h0] at h
    simp at h
  have := List.rdropWhile_last_not p s hne
  rw [List.getLast?_eq_getLast _ hne] at h
  simp at h
  rw [h] at this
  simpa using this

theorem rdropWhile_head (p : Char → Bool) (s : Str) (c : Char)
    (h : (s.rdropWhile p).head? = some c) : s.head? = some c := by
  obtain ⟨t, ht⟩ := List.rdropWhile_prefix p s
  cases hr : s.rdropWhile p with
  | nil => rw [hr] at h; simp at h
  | cons a u =>
    rw [hr] at h ht
    rw [← ht]
    simpa using h

theorem trimmed_trimSpace (s : Str) : Trimmed (trimSpace s) := by
  constructor
  · intro c hc
    exact dropWhile_head_not isSpace s c (rdropWhile_head isSpace _ c hc)
  · intro c hc
    exact rdropWhile_getLast_not isSpace _ c hc

theorem trimSpace_of_trimmed (s : Str) (h : Trimmed s) : trimSpace s = s := by
  have h1 : s.dropWhile isSpace = s := by
    cases s with
    | nil => rfl
    | cons a t =>
      have := h.1 a (by simp)
      simp [List.dropWhile_cons, this]
  unfold trimSpace
  rw [h1, List.rdropWhile_eq_self_iff]
  intro hl
  have := h.2 (s.getLast hl) (List.getLast?_eq_getLast _ hl)
  simp [this]

/-! ## The sanitizer -/

theorem trimPrefix_tick (s : Str) (h : hasPrefix s tick = true) : trimPrefix s tick = s.tail := by
  unfold trimPrefix
  rw [if_pos h, tick_eq]
  simp

theorem trimSuffix_tick (s : Str) :
    trimSuffix s tick = if s.getLast? = some tickChar then s.dropLast else s := by
  unfold trimSuffix
  by_cases h : hasSuffix s tick = true
  · have h2 := (hasSuffix_tick s).1 h
    rw [if_pos h, if_pos h2, tick_eq, List.dropLast_eq_take]
    simp
  · have h2 : ¬ s.getLast? = some tickChar := fun h3 => h ((hasSuffix_tick s).2 h3)
    rw [if_neg h, if_neg h2]

theorem hasPrefix_fence_tick (s : Str) (h : hasPrefix s fence = true) :
    hasPrefix s tick = true := by
  rw [hasPrefix_tick]
  cases s with
  | nil => simp [hasPrefix, fence_eq, List.isPrefixOf] at h
  | cons a t =>
    simp only [hasPrefix, fence_eq, List.isPrefixOf, Bool.and_eq_true, beq_iff_eq] at h
    exact congrArg some (h.1.symm.trans rfl)

theorem hasSuffix_fence_tick (s : Str) (h : hasSuffix s fence = true) :
    hasSuffix s tick = true := by
  rw [hasSuffix_tick, ← List.head?_reverse]
  cases hr : s.reverse with
  | nil => simp [hasSuffix, fence_eq, List.isSuffixOf, List.isPrefixOf, hr] at h
  | cons a t =>
    simp only [hasSuffix, fence_eq, List.isSuffixOf, hr, List.reverse_cons, List.reverse_nil,
      List.nil_append, List.singleton_append, List.cons_append, List.isPrefixOf,
      Bool.and_eq_true, beq_iff_eq] at h
    exact congrArg some (h.1.symm.trans rfl)

theorem sanitize_eq_twoCase (raw : Str) : sanitizeIACommand raw = sanitizeTwoCase raw := by
  unfold sanitizeIACommand sanitizeTwoCase
  simp only []
  by_cases hp : hasPrefix (trimSpace raw) tick = true
  · by_cases hs : hasSuffix (trimSpace raw) tick = true
    · have h1 := (hasPrefix_tick _).1 hp
      have h2 := (hasSuffix_tick _).1 hs
      simp only [hp, hs, Bool.and_self, if_true, h1, h2, and_self]
      rw [trimPrefix_tick _ hp, trimSuffix_tick]
    · have h2 : ¬ (trimSpace raw).getLast? = some tickChar :=
        fun h3 => hs ((hasSuffix_tick _).2 h3)
      have h3 : ¬ hasSuffix (trimSpace raw) fence = true :=
        fun h4 => hs (hasSuffix_fence_tick _ h4)
      simp [hp, hs, h2, h3]
  · have h1 : ¬ (trimSpace raw).head? = some tickChar :=
      fun h3 => hp ((hasPrefix_tick _).2 h3)
    have h3 : ¬ hasPrefix (trimSpace raw) fence = true :=
      fun h4 => hp (hasPrefix_fence_tick _ h4)
    simp [hp, h1, h3]

theorem trimmed_twoCase (raw : Str) : Trimmed (sanitizeTwoCase raw) := by
  unfold sanitizeTwoCase
  simp only []
  split
  · exact trimmed_trimSpace _
  · exact trimmed_trimSpace _

theorem trimmed_wrapped (c : Str) : Trimmed (tickChar :: (c ++ [tickChar])) := by
  constructor
  · intro d hd
    simp at hd
    subst hd
    exact isSpace_tickChar
  · intro d hd
    rw [← List.cons_append, List.getLast?_append] at hd
    simp at hd
    subst hd
    exact isSpace_tickChar

theorem sanitize_wrapped (c : Str) :
    sanitizeIACommand (tick ++ c ++ tick) = trimSpace c := by
  rw [sanitize_eq_twoCase, tick_eq]
  unfold sanitizeTwoCase
  have ht : trimSpace ([tickChar] ++ c ++ [tickChar]) = tickChar :: (c ++ [tickChar]) := by
    simpa using trimSpace_of_trimmed _ (trimmed_wrapped c)
  have hl : (tickChar :: (c ++ [tickChar])).getLast? = some tickChar := by
    rw [← List.cons_append, List.getLast?_append]
    simp
  have hl2 : (c ++ [tickChar]).getLast? = some tickChar := by
    rw [List.getLast?_append]
    simp
  simp only [ht, hl, List.head?_cons, and_self, if_true, List.tail_cons, hl2,
    List.dropLast_concat]

/-- C10: the triple-backtick branch of `sanitizeIACommand` is never taken: on
every input the function equals the two-case function (trim; if the trimmed
text starts and ends with a backtick, remove one backtick from the front and,
if one remains, one from the back, and trim again; otherwise the trimmed text);
whenever the fence test holds the single-backtick test holds too; and the
result has no white space at either end. -/
theorem sanitize_is_two_case (raw : Str) :
    sanitizeIACommand raw = sanitizeTwoCase raw ∧
    (∀ cmd : Str, hasPrefix cmd fence = true → hasSuffix cmd fence = true →
      (hasPrefix cmd tick && hasSuffix cmd tick) = true) ∧
    Trimmed (sanitizeIACommand raw) := by
  refine ⟨sanitize_eq_twoCase raw, ?_, ?_⟩
  · intro cmd h1 h2
    simp [hasPrefix_fence_tick cmd h1, hasSuffix_fence_tick cmd h2]
  · rw [sanitize_eq_twoCase]
    exact trimmed_twoCase raw

/-- C6: for every command text `c` with no backtick, sanitizing `c` wrapped in
single backticks gives `strings.TrimSpace` of `c`. -/
theorem sanitize_single_backticks (c : Str) (_hc : tickChar ∉ c) :
    sanitizeIACommand (tick ++ c ++ tick) = trimSpace c :=
  sanitize_wrapped c

/-- C6 at the scenario of the specification: the response made of `ls -la` in
single backticks is sanitized to `ls -la`. -/
theorem sanitize_single_backticks_witness :
    tickChar ∉ "ls -la".toList ∧
    sanitizeIACommand (tick ++ "ls -la".toList ++ tick) = trimSpace "ls -la".toList ∧
    tick ++ "ls -la".toList ++ tick = "`ls -la`".toList ∧
    trimSpace "ls -la".toList = "ls -la".toList :=
  ⟨by decide, sanitize_single_backticks "ls -la".toList (by decide), by decide, by decide⟩

/-- C5 as stated fails: two backticks around `ls` on each side lose one layer
per application, so a second application changes the result. -/
theorem sanitize_not_idempotent :
    sanitizeIACommand (sanitizeIACommand "``ls``".toList) ≠ sanitizeIACommand "``ls``".toList := by
  decide

/-- C5, amended: when the sanitized text is not itself wrapped in backticks
(it does not both start and end with a backtick), sanitizing it again changes
nothing. -/
theorem sanitize_idempotent_on_clean (x : Str)
    (h : ¬ (hasPrefix (sanitizeIACommand x) tick = true ∧
            hasSuffix (sanitizeIACommand x) tick = true)) :
    sanitizeIACommand (sanitizeIACommand x) = sanitizeIACommand x := by
  have ht : trimSpace (sanitizeIACommand x) = sanitizeIACommand x := by
    apply trimSpace_of_trimmed
    rw [sanitize_eq_twoCase]
    exact trimmed_twoCase x
  rw [hasPrefix_tick, hasSuffix_tick] at h
  conv_lhs => rw [sanitize_eq_twoCase]
  unfold sanitizeTwoCase
  simp only [ht, h, if_false]

/-- C5, amended, at a concrete input: the response `ls -la` in single
backticks. -/
theorem sanitize_idempotent_on_clean_witness :
    ¬ (hasPrefix (sanitizeIACommand "`ls -la`".toList) tick = true ∧
       hasSuffix (sanitizeIACommand "`ls -la`".toList) tick = true) ∧
    sanitizeIACommand (sanitizeIACommand "`ls -la`".toList) =
      sanitizeIACommand "`ls -la`".toList :=
  ⟨by decide, sanitize_idempotent_on_clean "`ls -la`".toList (by decide)⟩

theorem trimSpace_subset (s : Str) : ∀ c ∈ trimSpace s, c ∈ s := by
  intro c hc
  unfold trimSpace at hc
  have h1 : c ∈ s.dropWhile isSpace := (List.rdropWhile_prefix isSpace _).subset hc
  exact (List.dropWhile_suffix isSpace).subset h1

theorem trimmed_fenced (c : Str) :
    Trimmed (tickChar :: tickChar :: (bashTag ++ c ++ [tickChar, tickChar])) := by
  constructor
  · intro d hd
    simp at hd
    subst hd
    exact isSpace_tickChar
  · intro d hd
    have : tickChar :: tickChar :: (bashTag ++ c ++ [tickChar, tickChar]) =
        (tickChar :: tickChar :: (bashTag ++ c ++ [tickChar])) ++ [tickChar] := by simp
    rw [this, List.getLast?_append] at hd
    simp at hd
    subst hd
    exact isSpace_tickChar

/-- C2: on a response made of a triple-backtick fence, the `bash` tag line, a
command text `c` with no backtick and a closing fence, `sanitizeIACommand`
removes one backtick on each side only: two backticks and the tag line stay,
and the result is not `strings.TrimSpace` of `c`. -/
theorem sanitize_fenced_bash (c : Str) (hc : tickChar ∉ c) :
    sanitizeIACommand (fence ++ bashTag ++ c ++ fence) =
      tickChar :: tickChar :: (bashTag ++ c ++ [tickChar, tickChar]) ∧
    sanitizeIACommand (fence ++ bashTag ++ c ++ fence) ≠ trimSpace c := by
  have hw : fence ++ bashTag ++ c ++ fence =
      tickChar :: ((tickChar :: tickChar :: (bashTag ++ c ++ [tickChar, tickChar])) ++
        [tickChar]) := by
    rw [fence_eq]
    simp
  have hval : sanitizeIACommand (fence ++ bashTag ++ c ++ fence) =
      tickChar :: tickChar :: (bashTag ++ c ++ [tickChar, tickChar]) := by
    have h := sanitize_wrapped (tickChar :: tickChar :: (bashTag ++ c ++ [tickChar, tickChar]))
    rw [tick_eq, trimSpace_of_trimmed _ (trimmed_fenced c)] at h
    rw [hw]
    exact h
  refine ⟨hval, ?_⟩
  rw [hval]
  intro h
  have hm : tickChar ∈ trimSpace c := by
    rw [← h]
    exact List.mem_cons_self _ _
  exact hc (trimSpace_subset c tickChar hm)

/-- C2 at the scenario of the specification: the fenced response with a `bash`
tag line around `date` keeps two backticks on each side and the tag line; it is
not sanitized to `date`. -/
theorem sanitize_fenced_bash_witness :
    sanitizeIACommand "```bash\ndate\n```".toList = "``bash\ndate\n``".toList ∧
    sanitizeIACommand "```bash\ndate\n```".toList ≠ "date".toList := by
  have h := sanitize_fenced_bash "date\n".toList (by decide)
  have e1 : fence ++ bashTag ++ "date\n".toList ++ fence = "```bash\ndate\n```".toList := by
    decide
  have e2 : trimSpace "date\n".toList = "date".toList := by decide
  rw [e1, e2] at h
  exact ⟨h.1.trans (by decide), h.2⟩

/-! ## Translation handling -/

theorem runShell_events (w : World) (cmd : Str) :
    (runShell w cmd).events = [.exec cmd] ∨
    (runShell w cmd).events = [.exec cmd, .say .commandFailed] := by
  unfold runShell
  split
  · exact Or.inl rfl
  · exact Or.inr rfl

theorem stdin_runShell (w : World) (cmd : Str) : (runShell w cmd).world.stdin = w.stdin := by
  unfold runShell World.run
  cases w.runs with
  | nil => rfl
  | cons r rs => cases r <;> rfl

theorem confirm_eof (home : Option Str) (lists : List (Option (List Str)))
    (gens : List (Option Str)) (runs dirs : List Bool) (modelName userPrompt response : Str) :
    handleIACommandConfirm ⟨[], home, lists, some response :: gens, runs, dirs⟩
      modelName userPrompt =
    ⟨false, ⟨[], home, lists, gens, runs, dirs⟩,
      [.generate modelName (systemPrompt ++ userPrompt),
       .say (.suggested (sanitizeIACommand response)), .readConfirm none]⟩ := rfl

theorem confirm_line (text : Str) (rest : List Str) (home : Option Str)
    (lists : List (Option (List Str))) (gens : List (Option Str)) (runs dirs : List Bool)
    (modelName userPrompt response : Str) :
    handleIACommandConfirm ⟨text :: rest, home, lists, some response :: gens, runs, dirs⟩
      modelName userPrompt =
    if toLower (trimSpace text) = "s".toList then
      ⟨false, (runShell ⟨rest, home, lists, gens, runs, dirs⟩ (sanitizeIACommand response)).world,
        [.generate modelName (systemPrompt ++ userPrompt),
         .say (.suggested (sanitizeIACommand response))] ++
        .readConfirm (some text) ::
          (runShell ⟨rest, home, lists, gens, runs, dirs⟩ (sanitizeIACommand response)).events⟩
    else if toLower (trimSpace text) = "x".toList then
      ⟨true, (runShell ⟨rest, home, lists, gens, runs, dirs⟩ (sanitizeIACommand response)).world,
        [.generate modelName (systemPrompt ++ userPrompt),
         .say (.suggested (sanitizeIACommand response))] ++
        .readConfirm (some text) ::
          (runShell ⟨rest, home, lists, gens, runs, dirs⟩ (sanitizeIACommand response)).events ++
            [.say .autoOn]⟩
    else
      ⟨false, ⟨rest, home, lists, gens, runs, dirs⟩,
        [.generate modelName (systemPrompt ++ userPrompt),
         .say (.suggested (sanitizeIACommand response))] ++
        [.readConfirm (some text), .say .cancelled]⟩ := rfl

theorem s_ne_x : ¬ ("s".toList = "x".toList) := by decide

/-- C3: in the confirm variant, after a successful backend response, with `d`
the trimmed, lower-cased confirmation line (`none` at end of input or on a read
failure): the sanitized command is handed to the shell exactly once when `d` is
`s` or `x` and nothing is executed otherwise; the function returns true exactly
when `d` is `x`; and the returned value is the same whatever the shell runs
report. -/
theorem confirm_decision (stdin : List Str) (home : Option Str)
    (lists : List (Option (List Str))) (gens : List (Option Str)) (runs : List Bool)
    (dirs : List Bool) (modelName userPrompt response : Str) :
    let r := handleIACommandConfirm ⟨stdin, home, lists, some response :: gens, runs, dirs⟩
      modelName userPrompt
    let d := stdin.head?.map fun text => toLower (trimSpace text)
    execs r.events =
      (if d = some "s".toList ∨ d = some "x".toList then [sanitizeIACommand response] else []) ∧
    (r.val = true ↔ d = some "x".toList) ∧
    (∀ runs2 : List Bool,
      (handleIACommandConfirm ⟨stdin, home, lists, some response :: gens, runs2, dirs⟩
        modelName userPrompt).val = r.val) := by
  intro r d
  have key : ∀ runs1 : List Bool,
      execs (handleIACommandConfirm ⟨stdin, home, lists, some response :: gens, runs1, dirs⟩
        modelName userPrompt).events =
        (if d = some "s".toList ∨ d = some "x".toList then [sanitizeIACommand response] else []) ∧
      (handleIACommandConfirm ⟨stdin, home, lists, some response :: gens, runs1, dirs⟩
        modelName userPrompt).val = decide (d = some "x".toList) := by
    intro runs1
    cases stdin with
    | nil =>
      have hd : d = none := rfl
      rw [confirm_eof, hd]
      exact ⟨rfl, rfl⟩
    | cons text rest =>
      have hd : d = some (toLower (trimSpace text)) := rfl
      rw [confirm_line, hd]
      simp only [Option.some.injEq]
      by_cases hs : toLower (trimSpace text) = "s".toList
      · have hx : ¬ toLower (trimSpace text) = "x".toList := fun h => s_ne_x (hs.symm.trans h)
        rw [if_pos hs, if_pos (Or.inl hs)]
        refine ⟨?_, (decide_eq_false hx).symm⟩
        rcases runShell_events ⟨rest, home, lists, gens, runs1, dirs⟩ (sanitizeIACommand response)
          with h | h <;> rw [h] <;> rfl
      · by_cases hx : toLower (trimSpace text) = "x".toList
        · rw [if_neg hs, if_pos hx, if_pos (Or.inr hx)]
          refine ⟨?_, (decide_eq_true hx).symm⟩
          rcases runShell_events ⟨rest, home, lists, gens, runs1, dirs⟩ (sanitizeIACommand response)
            with h | h <;> rw [h] <;> rfl
        · rw [if_neg hs, if_neg hx, if_neg (not_or.2 ⟨hs, hx⟩)]
          exact ⟨rfl, (decide_eq_false hx).symm⟩
  refine ⟨(key runs).1, ?_, ?_⟩
  · show (handleIACommandConfirm _ modelName userPrompt).val = true ↔ _
    rw [(key runs).2]
    simp only [decide_eq_true_eq]
  · intro runs2
    show _ = (handleIACommandConfirm _ modelName userPrompt).val
    rw [(key runs2).2, (key runs).2]

/-- C3 at concrete answers: `X` runs the sanitized command once and returns
true, `s` runs it once and returns false, `si` and the empty line run nothing
and return false, also when the shell run fails. -/
theorem confirm_decision_witness :
    (handleIACommandConfirm ⟨[" X ".toList], none, [], [some "`ls -la`".toList], [false], []⟩
      "m".toList "list files".toList).val = true ∧
    execs (handleIACommandConfirm ⟨[" X ".toList], none, [], [some "`ls -la`".toList], [false], []⟩
      "m".toList "list files".toList).events = ["ls -la".toList] ∧
    (handleIACommandConfirm ⟨["si".toList], none, [], [some "`ls -la`".toList], [], []⟩
      "m".toList "list files".toList).val = false ∧
    execs (handleIACommandConfirm ⟨["si".toList], none, [], [some "`ls -la`".toList], [], []⟩
      "m".toList "list files".toList).events = [] := by
  have h1 := confirm_decision [" X ".toList] none [] [] [false] [] "m".toList
    "list files".toList "`ls -la`".toList
  have h2 := confirm_decision ["si".toList] none [] [] [] [] "m".toList
    "list files".toList "`ls -la`".toList
  refine ⟨h1.2.1.2 (by decide), ?_, ?_, ?_⟩
  · rw [h1.1]; decide
  · decide
  · rw [h2.1]; decide

theorem runShell_cases (w : World) (cmd : Str) :
    (runShell w cmd).world.stdin = w.stdin ∧
    ((runShell w cmd).events = [.exec cmd] ∨
     (runShell w cmd).events = [.exec cmd, .say .commandFailed]) :=
  ⟨stdin_runShell w cmd, runShell_events w cmd⟩

theorem generate_stdin (w : World) : (w.generate).2.stdin = w.stdin := by
  unfold World.generate
  split <;> rfl

theorem auto_cases (w : World) (m p : Str) :
    (handleIACommandAuto w m p).world.stdin = w.stdin ∧
    ((w.generate.1 = none ∧
      (handleIACommandAuto w m p).events =
        [.generate m (systemPrompt ++ p), .say .backendError]) ∨
     (∃ response, w.generate.1 = some response ∧
      ((handleIACommandAuto w m p).events =
          [.generate m (systemPrompt ++ p), .exec (sanitizeIACommand response)] ∨
       (handleIACommandAuto w m p).events =
          [.generate m (systemPrompt ++ p), .exec (sanitizeIACommand response),
            .say .commandFailed]))) := by
  have hg := generate_stdin w
  unfold handleIACommandAuto
  simp only []
  cases h : w.generate with
  | mk g w1 =>
    rw [h] at hg
    cases g with
    | none => exact ⟨hg, Or.inl ⟨rfl, rfl⟩⟩
    | some response =>
      obtain ⟨hs, he⟩ := runShell_cases w1 (sanitizeIACommand response)
      refine ⟨hs.trans hg, Or.inr ⟨response, rfl, ?_⟩⟩
      rcases he with he | he
      · exact Or.inl (by simp only [he])
      · exact Or.inr (by simp only [he])

theorem confirm_cases (w : World) (m p : Str) :
    (w.generate.1 = none ∧ (handleIACommandConfirm w m p).val = false ∧
      (handleIACommandConfirm w m p).world.stdin = w.stdin ∧
      (handleIACommandConfirm w m p).events =
        [.generate m (systemPrompt ++ p), .say .backendError]) ∨
    (∃ response, w.generate.1 = some response ∧
      ((w.stdin = [] ∧ (handleIACommandConfirm w m p).val = false ∧
        (handleIACommandConfirm w m p).events =
          [.generate m (systemPrompt ++ p), .say (.suggested (sanitizeIACommand response)),
            .readConfirm none]) ∨
       (∃ text rest tail, w.stdin = text :: rest ∧
        (handleIACommandConfirm w m p).world.stdin = rest ∧
        (handleIACommandConfirm w m p).events =
          .generate m (systemPrompt ++ p) :: .say (.suggested (sanitizeIACommand response)) ::
            .readConfirm (some text) :: tail ∧
        ConfirmTail text (sanitizeIACommand response) (handleIACommandConfirm w m p).val tail))) := by
  obtain ⟨stdin, home, lists, gens, runs, dirs⟩ := w
  cases gens with
  | nil => exact Or.inl ⟨rfl, rfl, rfl, rfl⟩
  | cons g gs =>
    cases g with
    | none => exact Or.inl ⟨rfl, rfl, rfl, rfl⟩
    | some response =>
      refine Or.inr ⟨response, rfl, ?_⟩
      cases stdin with
      | nil => exact Or.inl ⟨rfl, rfl, rfl⟩
      | cons text rest =>
        refine Or.inr ⟨text, rest, ?_⟩
        rw [confirm_line]
        obtain ⟨hs, he⟩ := runShell_cases ⟨rest, home, lists, gs, runs, dirs⟩
          (sanitizeIACommand response)
        by_cases h1 : toLower (trimSpace text) = "s".toList
        · rw [if_pos h1]
          rcases he with he | he
          · exact ⟨_, rfl, hs, by simp only [he]; rfl, Or.inl ⟨h1, rfl, Or.inl rfl⟩⟩
          · exact ⟨_, rfl, hs, by simp only [he]; rfl, Or.inl ⟨h1, rfl, Or.inr rfl⟩⟩
        · rw [if_neg h1]
          by_cases h2 : toLower (trimSpace text) = "x".toList
          · rw [if_pos h2]
            rcases he with he | he
            · exact ⟨_, rfl, hs, by simp only [he]; rfl, Or.inr (Or.inl ⟨h2, rfl, Or.inl rfl⟩)⟩
            · exact ⟨_, rfl, hs, by simp only [he]; rfl, Or.inr (Or.inl ⟨h2, rfl, Or.inr rfl⟩)⟩
          · rw [if_neg h2]
            exact ⟨_, rfl, rfl, rfl, Or.inr (Or.inr ⟨h1, h2, rfl, rfl⟩)⟩

/-! ## The dispatch of the main loop -/

theorem hasPrefix_iff (s pre : Str) : hasPrefix s pre = true ↔ pre <+: s :=
  List.isPrefixOf_iff_prefix

theorem scan_cons (w : World) (text : Str) (rest : List Str) (h : w.stdin = text :: rest) :
    w.scan = (some text, { w with stdin := rest }) := by
  simp only [World.scan, h]

theorem loopBody_eq_handleClass (s : Session) (w : World) (text : Str) (rest : List Str)
    (hstdin : w.stdin = text :: rest) (hne : trimSpace text ≠ []) :
    loopBody s w =
      handleClass s { w with stdin := rest } (.readInput (some text)) (classify (trimSpace text)) := by
  unfold loopBody classify
  rw [scan_cons w text rest hstdin]
  simp only [hne, if_false]
  by_cases hcd : hasPrefix (trimSpace text) cdPrefix = true
  · rw [if_pos hcd, if_pos ((hasPrefix_iff _ _).1 hcd)]
    simp only [handleClass, trimPrefix, hcd, if_true]
    rfl
  · rw [if_neg hcd, if_neg (fun h => hcd ((hasPrefix_iff _ _).2 h))]
    by_cases hm : trimSpace text = modelCmd
    · rw [if_pos hm, if_pos hm]
      simp only [handleClass]
    · rw [if_neg hm, if_neg hm]
      by_cases ha : trimSpace text = askCmd
      · rw [if_pos ha, if_pos ha]
        rfl
      · rw [if_neg ha, if_neg ha]
        by_cases hia : hasPrefix (trimSpace text) iaPrefix = true
        · rw [if_pos hia, if_pos ((hasPrefix_iff _ _).1 hia)]
          simp only [handleClass, trimPrefix, hia, if_true]
          rfl
        · rw [if_neg hia, if_neg (fun h => hia ((hasPrefix_iff _ _).2 h))]
          rfl

/-! ## Model selection -/

theorem validChoice_false (n : Nat) (l : Str) (h : validChoice n l = false) :
    atoi l = none ∨ ∃ k, atoi l = some k ∧ (k < 1 ∨ k > (n : Int)) := by
  unfold validChoice at h
  cases ha : atoi l with
  | none => exact Or.inl rfl
  | some k =>
    rw [ha] at h
    simp only [decide_eq_false_iff_not, not_and_or, not_le] at h
    exact Or.inr ⟨k, rfl, h⟩

theorem readChoice_reject (n : Nat) (l : Str) (lines : List Str)
    (h : validChoice n l = false) :
    readChoice n (l :: lines) =
      ((readChoice n lines).1, (readChoice n lines).2.1,
        .readSelection (some l) :: .say .invalidSelection :: (readChoice n lines).2.2) := by
  rcases validChoice_false n l h with ha | ⟨k, ha, hk⟩
  · simp only [readChoice, ha]
  · simp only [readChoice, ha, hk, if_true]

theorem readChoice_accept (n : Nat) (l : Str) (lines : List Str) (k : Int)
    (ha : atoi l = some k) (h1 : 1 ≤ k) (h2 : k ≤ (n : Int)) :
    readChoice n (l :: lines) = (some k, lines, [.readSelection (some l)]) := by
  have hk : ¬ (k < 1 ∨ k > (n : Int)) := by omega
  simp only [readChoice, ha, hk, if_false]

theorem readChoice_skip (n : Nat) (pre lines : List Str)
    (hpre : ∀ l ∈ pre, validChoice n l = false) :
    readChoice n (pre ++ lines) =
      ((readChoice n lines).1, (readChoice n lines).2.1,
        reprompts pre ++ (readChoice n lines).2.2) := by
  induction pre with
  | nil => rfl
  | cons l t ih =>
    have hl := hpre l (List.mem_cons_self l t)
    have ht : ∀ x ∈ t, validChoice n x = false := fun x hx => hpre x (List.mem_cons_of_mem l hx)
    rw [List.cons_append, readChoice_reject n l _ hl, ih ht]
    rfl

theorem readChoice_range (n : Nat) (lines : List Str) (k : Int)
    (h : (readChoice n lines).1 = some k) : 1 ≤ k ∧ k ≤ (n : Int) := by
  induction lines with
  | nil => simp [readChoice] at h
  | cons l t ih =>
    by_cases hv : validChoice n l = false
    · rw [readChoice_reject n l t hv] at h
      exact ih h
    · unfold validChoice at hv
      cases ha : atoi l with
      | none => rw [ha] at hv; exact absurd rfl hv
      | some j =>
        rw [ha] at hv
        simp only [decide_eq_false_iff_not, not_not] at hv
        rw [readChoice_accept n l t j ha hv.1 hv.2] at h
        simp only [Option.some.injEq] at h
        exact h ▸ hv

theorem readChoice_events (n : Nat) (lines : List Str) :
    ∀ e ∈ (readChoice n lines).2.2, (∃ l, e = .readSelection l) ∨ e = .say .invalidSelection := by
  induction lines with
  | nil =>
    intro e he
    simp only [readChoice, List.mem_singleton] at he
    exact Or.inl ⟨none, he⟩
  | cons l t ih =>
    intro e he
    by_cases hv : validChoice n l = false
    · rw [readChoice_reject n l t hv] at he
      simp only [List.mem_cons] at he
      rcases he with he | he | he
      · exact Or.inl ⟨_, he⟩
      · exact Or.inr he
      · exact ih e he
    · unfold validChoice at hv
      cases ha : atoi l with
      | none => rw [ha] at hv; exact absurd rfl hv
      | some j =>
        rw [ha] at hv
        simp only [decide_eq_false_iff_not, not_not] at hv
        rw [readChoice_accept n l t j ha hv.1 hv.2] at he
        simp only [List.mem_singleton] at he
        exact Or.inl ⟨_, he⟩

theorem chooseModel_listed (w : World) (models : List Str) (others : List (Option (List Str)))
    (hlist : w.lists = some models :: others) (hne : models ≠ []) :
    chooseModel w =
      match readChoice models.length w.stdin with
      | (none, rest, evs) =>
        ⟨.fatal, { w with lists := others, stdin := rest }, .listModels :: evs⟩
      | (some choice, rest, evs) =>
        if choice - 1 < 0 then
          ⟨.panicked, { w with lists := others, stdin := rest }, .listModels :: evs⟩
        else
          match models[(choice - 1).toNat]? with
          | none => ⟨.panicked, { w with lists := others, stdin := rest }, .listModels :: evs⟩
          | some name => ⟨.ok name, { w with lists := others, stdin := rest }, .listModels :: evs⟩ := by
  have hlen : ¬ models.length = 0 := fun h => hne (List.length_eq_zero.1 h)
  simp only [chooseModel, World.list, hlist, hlen, if_false]

theorem chooseModel_events (w : World) :
    ∀ e ∈ (chooseModel w).events,
      e = .listModels ∨ (∃ l, e = .readSelection l) ∨ e = .say .invalidSelection := by
  intro e he
  unfold chooseModel at he
  split at he
  · simp only [List.mem_singleton] at he
    exact Or.inl he
  · split at he
    · simp only [List.mem_singleton] at he
      exact Or.inl he
    · rename_i models w1 _ _
      have hev := readChoice_events models.length w1.stdin
      split at he
      · rename_i rest evs heq
        rw [heq] at hev
        simp only [List.mem_cons] at he
        rcases he with he | he
        · exact Or.inl he
        · exact Or.inr (hev e he)
      · rename_i choice rest evs heq
        rw [heq] at hev
        have hmem : e ∈ Event.listModels :: evs := by
          split at he
          · exact he
          · split at he <;> exact he
        simp only [List.mem_cons] at hmem
        rcases hmem with he | he
        · exact Or.inl he
        · exact Or.inr (hev e he)

/-- C9: for a non-empty model list and any selection lines, `chooseModel`
returns the name at position `k - 1`, where `k` is parsed from the first line
that is a decimal integer with `1 ≤ k ≤ n`; each earlier line is read and
answered by a re-prompt only; the index is within bounds and the function never
panics; when no line is valid the input runs out and the process ends by
`log.Fatal`, no model being returned. -/
theorem chooseModel_selects (w : World) (models : List Str)
    (others : List (Option (List Str)))
    (hlist : w.lists = some models :: others) (hne : models ≠ []) :
    (∀ (pre : List Str) (line : Str) (post : List Str) (k : Int),
      w.stdin = pre ++ line :: post →
      (∀ l ∈ pre, validChoice models.length l = false) →
      atoi line = some k → 1 ≤ k → k ≤ (models.length : Int) →
      ∃ h : (k - 1).toNat < models.length,
        (chooseModel w).val = .ok (models.get ⟨(k - 1).toNat, h⟩) ∧
        (chooseModel w).world.stdin = post ∧
        (chooseModel w).events =
          .listModels :: (reprompts pre ++ [.readSelection (some line)])) ∧
    ((∀ l ∈ w.stdin, validChoice models.length l = false) →
      (chooseModel w).val = .fatal ∧
      (chooseModel w).events =
        .listModels :: (reprompts w.stdin ++ [.readSelection none])) ∧
    (chooseModel w).val ≠ .panicked := by
  refine ⟨?_, ?_, ?_⟩
  · intro pre line post k hstdin hpre ha h1 h2
    have hidx : (k - 1).toNat < models.length := by omega
    have hrc : readChoice models.length w.stdin =
        (some k, post, reprompts pre ++ [.readSelection (some line)]) := by
      rw [hstdin, readChoice_skip _ pre _ hpre, readChoice_accept _ line post k ha h1 h2]
    have hnn : ¬ (k - 1 < 0) := by omega
    refine ⟨hidx, ?_⟩
    rw [chooseModel_listed w models others hlist hne, hrc]
    simp only [hnn, if_false, List.getElem?_eq_getElem hidx]
    exact ⟨rfl, trivial, trivial⟩
  · intro hall
    have hrc : readChoice models.length w.stdin =
        (none, [], reprompts w.stdin ++ [.readSelection none]) := by
      have := readChoice_skip models.length w.stdin [] hall
      rw [List.append_nil] at this
      rw [this]
      rfl
    rw [chooseModel_listed w models others hlist hne, hrc]
    exact ⟨rfl, rfl⟩
  · rw [chooseModel_listed w models others hlist hne]
    cases hrc : readChoice models.length w.stdin with
    | mk c p =>
      obtain ⟨rest, evs⟩ := p
      cases c with
      | none => simp
      | some k =>
        have hr := readChoice_range models.length w.stdin k (by rw [hrc])
        have hidx : (k - 1).toNat < models.length := by omega
        have hnn : ¬ (k - 1 < 0) := by omega
        simp only [hnn, if_false, List.getElem?_eq_getElem hidx]
        simp

/-- C9 at a concrete input: with two models, the lines `abc`, `0` and `3` are
rejected and the line `2` selects the second model; the line after it stays
unread. -/
theorem chooseModel_selects_witness :
    (chooseModel
      ⟨["abc".toList, "0".toList, "3".toList, "2".toList, "zzz".toList], none,
        [some ["llama3".toList, "mistral".toList]], [], [], []⟩).val = .ok "mistral".toList ∧
    (chooseModel
      ⟨["abc".toList, "0".toList, "3".toList, "2".toList, "zzz".toList], none,
        [some ["llama3".toList, "mistral".toList]], [], [], []⟩).world.stdin = ["zzz".toList] := by
  obtain ⟨_, hv, hs, _⟩ :=
    (chooseModel_selects
      ⟨["abc".toList, "0".toList, "3".toList, "2".toList, "zzz".toList], none,
        [some ["llama3".toList, "mistral".toList]], [], [], []⟩
      ["llama3".toList, "mistral".toList] [] rfl (by decide)).1
      ["abc".toList, "0".toList, "3".toList] "2".toList ["zzz".toList] 2 rfl
      (by decide) (by decide) (by decide) (by decide)
  exact ⟨hv.trans rfl, hs⟩

/-! ## The auto-execute flag -/

theorem quiet_nil : Quiet [] := by
  intro e he
  cases he

theorem quiet_cons (e : Event) (evs : List Event)
    (he : disableEvent e = false ∧ acceptAlwaysEvent e = false) (h : Quiet evs) :
    Quiet (e :: evs) := by
  intro x hx
  rcases List.mem_cons.1 hx with rfl | hx
  · exact he
  · exact h x hx

theorem quiet_append (a b : List Event) (ha : Quiet a) (hb : Quiet b) : Quiet (a ++ b) := by
  intro x hx
  rcases List.mem_append.1 hx with hx | hx
  · exact ha x hx
  · exact hb x hx

theorem quiet_any (evs : List Event) (h : Quiet evs) :
    isDisable evs = false ∧ isAcceptAlways evs = false := by
  constructor
  · unfold isDisable
    rw [List.any_eq_false]
    intro x hx
    rw [(h x hx).1]
    exact Bool.false_ne_true
  · unfold isAcceptAlways
    rw [List.any_eq_false]
    intro x hx
    rw [(h x hx).2]
    exact Bool.false_ne_true

theorem quiet_chooseModel (w : World) : Quiet (chooseModel w).events := by
  intro e he
  rcases chooseModel_events w e he with rfl | ⟨l, rfl⟩ | rfl <;> exact ⟨rfl, rfl⟩

theorem quiet_warmUp (w : World) (m : Str) : Quiet (warmUpModel w m).events := by
  unfold warmUpModel
  split
  · exact quiet_cons _ _ ⟨rfl, rfl⟩ (quiet_cons _ _ ⟨rfl, rfl⟩ quiet_nil)
  · exact quiet_cons _ _ ⟨rfl, rfl⟩ quiet_nil

theorem quiet_auto (w : World) (m p : Str) : Quiet (handleIACommandAuto w m p).events := by
  rcases (auto_cases w m p).2 with ⟨_, h⟩ | ⟨response, _, h | h⟩ <;> rw [h]
  · exact quiet_cons _ _ ⟨rfl, rfl⟩ (quiet_cons _ _ ⟨rfl, rfl⟩ quiet_nil)
  · exact quiet_cons _ _ ⟨rfl, rfl⟩ (quiet_cons _ _ ⟨rfl, rfl⟩ quiet_nil)
  · exact quiet_cons _ _ ⟨rfl, rfl⟩
      (quiet_cons _ _ ⟨rfl, rfl⟩ (quiet_cons _ _ ⟨rfl, rfl⟩ quiet_nil))

theorem quiet_doChdir (s : Session) (w : World) (read : Event) (dir : Str) :
    (doChdir s w read dir).status = .running ∧ (doChdir s w read dir).session = s ∧
    ∃ tail, (doChdir s w read dir).events = read :: tail ∧ Quiet tail := by
  unfold doChdir
  split
  · exact ⟨rfl, rfl, _, rfl, quiet_cons _ _ ⟨rfl, rfl⟩ quiet_nil⟩
  · exact ⟨rfl, rfl, _, rfl, quiet_cons _ _ ⟨rfl, rfl⟩ (quiet_cons _ _ ⟨rfl, rfl⟩ quiet_nil)⟩

theorem acceptAlwaysEvent_confirm (text : Str) :
    acceptAlwaysEvent (.readConfirm (some text)) = true ↔
      toLower (trimSpace text) = "x".toList := by
  unfold acceptAlwaysEvent
  exact beq_iff_eq

theorem disableEvent_input (text : Str) :
    disableEvent (.readInput (some text)) = true ↔ trimSpace text = askCmd := by
  unfold disableEvent
  exact beq_iff_eq

theorem confirm_flags (w : World) (m p : Str) :
    isDisable (handleIACommandConfirm w m p).events = false ∧
    isAcceptAlways (handleIACommandConfirm w m p).events = (handleIACommandConfirm w m p).val := by
  rcases confirm_cases w m p with ⟨_, hv, _, he⟩ | ⟨response, _, ⟨_, hv, he⟩ | ⟨text, rest, tail, _, _, he, ht⟩⟩
  · rw [he, hv]
    exact ⟨rfl, rfl⟩
  · rw [he, hv]
    exact ⟨rfl, rfl⟩
  · rw [he]
    have hq : Quiet tail := by
      rcases ht with ⟨_, _, h | h⟩ | ⟨_, _, h | h⟩ | ⟨_, _, _, h⟩ <;> rw [h] <;>
        intro e hx <;> simp only [List.mem_cons, List.mem_singleton, List.not_mem_nil, or_false] at hx <;>
        rcases hx with rfl | rfl | rfl <;> exact ⟨rfl, rfl⟩
    obtain ⟨hd, ha⟩ := quiet_any tail hq
    constructor
    · simp only [isDisable, List.any_cons] at hd ⊢
      rw [hd]
      rfl
    · simp only [isAcceptAlways, List.any_cons] at ha ⊢
      rw [ha]
      have hg : acceptAlwaysEvent (.generate m (systemPrompt ++ p)) = false := rfl
      have hsay : acceptAlwaysEvent (.say (.suggested (sanitizeIACommand response))) = false := rfl
      rw [hg, hsay]
      simp only [Bool.false_or, Bool.or_false]
      rcases ht with ⟨h1, hv, _⟩ | ⟨h1, hv, _⟩ | ⟨_, h1, hv, _⟩
      · rw [hv]
        cases hb : acceptAlwaysEvent (.readConfirm (some text)) with
        | false => rfl
        | true => exact absurd (h1.symm.trans ((acceptAlwaysEvent_confirm text).1 hb)) s_ne_x
      · rw [hv]
        exact (acceptAlwaysEvent_confirm text).2 h1
      · rw [hv]
        cases hb : acceptAlwaysEvent (.readConfirm (some text)) with
        | false => rfl
        | true => exact absurd ((acceptAlwaysEvent_confirm text).1 hb) h1

theorem flag_quiet (b : Bool) (text : Str) (tail : List Event) (hq : Quiet tail)
    (hna : trimSpace text ≠ askCmd) :
    flagAfter b (.readInput (some text) :: tail) = b ∧
    ¬ (isDisable (.readInput (some text) :: tail) = true ∧
       isAcceptAlways (.readInput (some text) :: tail) = true) ∧
    isDisable (.readInput (some text) :: tail) = false := by
  obtain ⟨hd, ha⟩ := quiet_any tail hq
  have h1 : disableEvent (.readInput (some text)) = false := by
    cases hb : disableEvent (.readInput (some text)) with
    | false => rfl
    | true => exact absurd ((disableEvent_input text).1 hb) hna
  have hD : isDisable (.readInput (some text) :: tail) = false := by
    simp only [isDisable, List.any_cons] at hd ⊢
    rw [h1, hd]
    rfl
  have hA : isAcceptAlways (.readInput (some text) :: tail) = false := ha
  refine ⟨?_, ?_, hD⟩
  · unfold flagAfter
    rw [hD, hA]
    rfl
  · rw [hD]
    exact fun h => Bool.false_ne_true h.1

theorem flag_ask (b : Bool) (text : Str) (tail : List Event) (hq : Quiet tail)
    (ha : trimSpace text = askCmd) :
    flagAfter b (.readInput (some text) :: tail) = false ∧
    ¬ (isDisable (.readInput (some text) :: tail) = true ∧
       isAcceptAlways (.readInput (some text) :: tail) = true) ∧
    isDisable (.readInput (some text) :: tail) = true := by
  have h1 : disableEvent (.readInput (some text)) = true := (disableEvent_input text).2 ha
  have hD : isDisable (.readInput (some text) :: tail) = true := by
    simp only [isDisable, List.any_cons]
    rw [h1]
    rfl
  have hA : isAcceptAlways (.readInput (some text) :: tail) = false := (quiet_any tail hq).2
  refine ⟨?_, ?_, hD⟩
  · unfold flagAfter
    rw [hD]
    rfl
  · rw [hA]
    exact fun h => Bool.false_ne_true h.2

theorem flag_confirm (b : Bool) (text : Str) (w : World) (m p : Str)
    (hna : trimSpace text ≠ askCmd) :
    flagAfter b (.readInput (some text) :: (handleIACommandConfirm w m p).events) =
      (if (handleIACommandConfirm w m p).val = true then true else b) ∧
    ¬ (isDisable (.readInput (some text) :: (handleIACommandConfirm w m p).events) = true ∧
       isAcceptAlways (.readInput (some text) :: (handleIACommandConfirm w m p).events) = true) ∧
    isDisable (.readInput (some text) :: (handleIACommandConfirm w m p).events) = false := by
  obtain ⟨hd, ha⟩ := confirm_flags w m p
  have h1 : disableEvent (.readInput (some text)) = false := by
    cases hb : disableEvent (.readInput (some text)) with
    | false => rfl
    | true => exact absurd ((disableEvent_input text).1 hb) hna
  have hD : isDisable (.readInput (some text) :: (handleIACommandConfirm w m p).events) = false := by
    simp only [isDisable, List.any_cons] at hd ⊢
    rw [h1, hd]
    rfl
  have hA : isAcceptAlways (.readInput (some text) :: (handleIACommandConfirm w m p).events) =
      (handleIACommandConfirm w m p).val := ha
  refine ⟨?_, ?_, hD⟩
  · unfold flagAfter
    rw [hD, hA]
    rfl
  · rw [hD]
    exact fun h => Bool.false_ne_true h.1

theorem classify_disable (input : Str) : classify input = .disableAuto ↔ input = askCmd := by
  constructor
  · intro h
    unfold classify at h
    split_ifs at h with h1 h2 h3 h4
    exact h3
  · intro h
    subst h
    decide

theorem dir_shape (s : Session) (w : World) (read : Event) (arg : Str) :
    (handleClass s w read (.directoryChange arg)).session.alwaysExecute = s.alwaysExecute ∧
    ∃ tail, (handleClass s w read (.directoryChange arg)).events = read :: tail ∧ Quiet tail := by
  simp only [handleClass]
  split_ifs
  · split
    · exact ⟨rfl, _, rfl, quiet_cons _ _ ⟨rfl, rfl⟩ quiet_nil⟩
    · obtain ⟨_, h2, h3⟩ := quiet_doChdir { s with isFirstLoop := false } w read ‹Str›
      exact ⟨by rw [h2], h3⟩
  · obtain ⟨_, h2, h3⟩ := quiet_doChdir { s with isFirstLoop := false } w read arg
    exact ⟨by rw [h2], h3⟩

theorem reselect_shape (s : Session) (w : World) (read : Event) :
    (handleClass s w read .reselect).session.alwaysExecute = s.alwaysExecute ∧
    ∃ tail, (handleClass s w read .reselect).events = read :: tail ∧ Quiet tail := by
  simp only [handleClass]
  split
  · exact ⟨rfl, _, rfl, quiet_append _ _ (quiet_chooseModel w) (quiet_warmUp _ _)⟩
  · exact ⟨rfl, _, rfl, quiet_chooseModel w⟩
  · exact ⟨rfl, _, rfl, quiet_chooseModel w⟩

theorem accept_read_quiet (text : Option Str) (tail : List Event) (hq : Quiet tail) :
    isAcceptAlways (.readInput text :: tail) = false :=
  (quiet_any tail hq).2

theorem handleClass_accept (s : Session) (w : World) (text : Str)
    (h : isAcceptAlways
      (handleClass s w (.readInput (some text)) (classify (trimSpace text))).events = true) :
    s.alwaysExecute = false ∧
    ∃ p, classify (trimSpace text) = .translate p ∧ p ≠ [] ∧
      (handleIACommandConfirm w s.selectedModel p).val = true := by
  cases hc : classify (trimSpace text) with
  | directoryChange arg =>
    rw [hc] at h
    obtain ⟨_, tail, h2, h3⟩ := dir_shape s w (.readInput (some text)) arg
    rw [h2, accept_read_quiet _ tail h3] at h
    cases h
  | reselect =>
    rw [hc] at h
    obtain ⟨_, tail, h2, h3⟩ := reselect_shape s w (.readInput (some text))
    rw [h2, accept_read_quiet _ tail h3] at h
    cases h
  | disableAuto =>
    rw [hc] at h
    cases h
  | translate userPrompt =>
    rw [hc] at h
    simp only [handleClass] at h
    split_ifs at h with hp hauto hval
    · cases h
    · have hq := accept_read_quiet (some text) _ (quiet_auto w s.selectedModel userPrompt)
      exact absurd (hq.symm.trans h) Bool.false_ne_true
    · have hs : s.alwaysExecute = false := by
        cases hb : s.alwaysExecute with
        | false => rfl
        | true => exact absurd hb hauto
      exact ⟨hs, userPrompt, rfl, hp, hval⟩
    · have hv : isAcceptAlways
          (.readInput (some text) :: (handleIACommandConfirm w s.selectedModel userPrompt).events) =
          (handleIACommandConfirm w s.selectedModel userPrompt).val :=
        (confirm_flags w s.selectedModel userPrompt).2
      exact absurd (hv.symm.trans h) hval
  | rawExec line =>
    rw [hc] at h
    cases h

theorem handleClass_flag (s : Session) (w : World) (text : Str) :
    let r := handleClass s w (.readInput (some text)) (classify (trimSpace text))
    r.session.alwaysExecute = flagAfter s.alwaysExecute r.events ∧
    ¬ (isDisable r.events = true ∧ isAcceptAlways r.events = true) ∧
    (isDisable r.events = true ↔ trimSpace text = askCmd) := by
  intro r
  have hask := classify_disable (trimSpace text)
  cases hc : classify (trimSpace text) with
  | directoryChange arg =>
    have hna : trimSpace text ≠ askCmd := fun h => by
      rw [hask.2 h] at hc
      cases hc
    have hr : r = handleClass s w (.readInput (some text)) (.directoryChange arg) := by
      simp only [r, hc]
    have key : r.session.alwaysExecute = s.alwaysExecute ∧
        ∃ tail, r.events = .readInput (some text) :: tail ∧ Quiet tail := by
      rw [hr]
      exact dir_shape s w _ arg
    obtain ⟨h1, tail, h2, h3⟩ := key
    rw [h1, h2]
    obtain ⟨h4, h5, h6⟩ := flag_quiet s.alwaysExecute text tail h3 hna
    exact ⟨h4.symm, h5, iff_of_false (by rw [h6]; exact Bool.false_ne_true) hna⟩
  | reselect =>
    have hna : trimSpace text ≠ askCmd := fun h => by
      rw [hask.2 h] at hc
      cases hc
    have hr : r = handleClass s w (.readInput (some text)) .reselect := by
      simp only [r, hc]
    have key : r.session.alwaysExecute = s.alwaysExecute ∧
        ∃ tail, r.events = .readInput (some text) :: tail ∧ Quiet tail := by
      rw [hr]
      exact reselect_shape s w _
    obtain ⟨h1, tail, h2, h3⟩ := key
    rw [h1, h2]
    obtain ⟨h4, h5, h6⟩ := flag_quiet s.alwaysExecute text tail h3 hna
    exact ⟨h4.symm, h5, iff_of_false (by rw [h6]; exact Bool.false_ne_true) hna⟩
  | disableAuto =>
    have ha : trimSpace text = askCmd := hask.1 hc
    have hr : r = handleClass s w (.readInput (some text)) .disableAuto := by
      simp only [r, hc]
    rw [hr]
    simp only [handleClass]
    obtain ⟨h4, h5, h6⟩ := flag_ask s.alwaysExecute text [.say .autoOff]
      (quiet_cons _ _ ⟨rfl, rfl⟩ quiet_nil) ha
    exact ⟨h4.symm, h5, iff_of_true h6 ha⟩
  | translate userPrompt =>
    have hna : trimSpace text ≠ askCmd := fun h => by
      rw [hask.2 h] at hc
      cases hc
    have hr : r = handleClass s w (.readInput (some text)) (.translate userPrompt) := by
      simp only [r, hc]
    rw [hr]
    simp only [handleClass]
    split_ifs with hp hauto hval
    · obtain ⟨h4, h5, h6⟩ := flag_quiet s.alwaysExecute text [.say .emptyPrompt]
        (quiet_cons _ _ ⟨rfl, rfl⟩ quiet_nil) hna
      exact ⟨h4.symm, h5, iff_of_false (by rw [h6]; exact Bool.false_ne_true) hna⟩
    · obtain ⟨h4, h5, h6⟩ := flag_quiet s.alwaysExecute text _
        (quiet_auto w s.selectedModel userPrompt) hna
      exact ⟨h4.symm, h5, iff_of_false (by rw [h6]; exact Bool.false_ne_true) hna⟩
    · obtain ⟨h4, h5, h6⟩ := flag_confirm s.alwaysExecute text w s.selectedModel userPrompt hna
      exact ⟨(h4.trans (if_pos hval)).symm, h5, iff_of_false (by rw [h6]; exact Bool.false_ne_true) hna⟩
    · obtain ⟨h4, h5, h6⟩ := flag_confirm s.alwaysExecute text w s.selectedModel userPrompt hna
      exact ⟨(h4.trans (if_neg hval)).symm, h5, iff_of_false (by rw [h6]; exact Bool.false_ne_true) hna⟩
  | rawExec line =>
    have hna : trimSpace text ≠ askCmd := fun h => by
      rw [hask.2 h] at hc
      cases hc
    have hr : r = handleClass s w (.readInput (some text)) (.rawExec line) := by
      simp only [r, hc]
    rw [hr]
    simp only [handleClass]
    obtain ⟨h4, h5, h6⟩ := flag_quiet s.alwaysExecute text [.exec line]
      (quiet_cons _ _ ⟨rfl, rfl⟩ quiet_nil) hna
    exact ⟨h4.symm, h5, iff_of_false (by rw [h6]; exact Bool.false_ne_true) hna⟩

theorem step_flag (s : Session) (w : World) :
    (loopBody s w).session.alwaysExecute = flagAfter s.alwaysExecute (loopBody s w).events ∧
    ¬ (isDisable (loopBody s w).events = true ∧ isAcceptAlways (loopBody s w).events = true) ∧
    (isDisable (loopBody s w).events = true ↔
      ∃ text rest, w.stdin = text :: rest ∧ trimSpace text = askCmd) := by
  cases hst : w.stdin with
  | nil =>
    have h : loopBody s w = ⟨.exited, { s with isFirstLoop := false }, w, [.readInput none]⟩ := by
      unfold loopBody
      simp only [World.scan, hst]
    rw [h]
    refine ⟨rfl, fun h => Bool.false_ne_true h.1, iff_of_false Bool.false_ne_true ?_⟩
    rintro ⟨t, r, ht, _⟩
    cases ht
  | cons text rest =>
    by_cases hne : trimSpace text = []
    · have h : loopBody s w = ⟨.running, { s with isFirstLoop := false },
          { w with stdin := rest }, [.readInput (some text)]⟩ := by
        unfold loopBody
        rw [scan_cons w text rest hst]
        simp only [hne, if_true]
      rw [h]
      have hna : trimSpace text ≠ askCmd := by
        rw [hne]
        decide
      obtain ⟨h4, h5, h6⟩ := flag_quiet s.alwaysExecute text [] quiet_nil hna
      refine ⟨h4.symm, h5, iff_of_false (by rw [h6]; exact Bool.false_ne_true) ?_⟩
      rintro ⟨t, r, ht, hask⟩
      obtain ⟨rfl, _⟩ := List.cons.inj ht
      exact hna hask
    · rw [loopBody_eq_handleClass s w text rest hst hne]
      obtain ⟨h4, h5, h6⟩ := handleClass_flag s { w with stdin := rest } text
      refine ⟨h4, h5, h6.trans ⟨fun h => ⟨text, rest, rfl, h⟩, ?_⟩⟩
      rintro ⟨t, r, ht, hask⟩
      obtain ⟨rfl, _⟩ := List.cons.inj ht
      exact hask

theorem step_accept (s : Session) (w : World)
    (h : isAcceptAlways (loopBody s w).events = true) :
    s.alwaysExecute = false ∧
    ∃ text rest p, w.stdin = text :: rest ∧ classify (trimSpace text) = .translate p ∧ p ≠ [] ∧
      (handleIACommandConfirm { w with stdin := rest } s.selectedModel p).val = true := by
  cases hst : w.stdin with
  | nil =>
    have hl : loopBody s w = ⟨.exited, { s with isFirstLoop := false }, w, [.readInput none]⟩ := by
      unfold loopBody
      simp only [World.scan, hst]
    rw [hl] at h
    cases h
  | cons text rest =>
    by_cases hne : trimSpace text = []
    · have hl : loopBody s w = ⟨.running, { s with isFirstLoop := false },
          { w with stdin := rest }, [.readInput (some text)]⟩ := by
        unfold loopBody
        rw [scan_cons w text rest hst]
        simp only [hne, if_true]
      rw [hl] at h
      cases h
    · rw [loopBody_eq_handleClass s w text rest hst hne] at h
      obtain ⟨h1, p, h2, h3, h4⟩ := handleClass_accept s { w with stdin := rest } text h
      exact ⟨h1, text, rest, p, rfl, h2, h3, h4⟩

theorem runLoop_flag (n : Nat) (s : Session) (w : World) :
    (runLoop n s w).1.session.alwaysExecute = flagAfterAll s.alwaysExecute (runLoop n s w).2 ∧
    ∀ e ∈ (runLoop n s w).2, ¬ (isDisable e = true ∧ isAcceptAlways e = true) := by
  induction n generalizing s w with
  | zero =>
    refine ⟨rfl, ?_⟩
    intro e he
    cases he
  | succ k ih =>
    obtain ⟨h1, h2, _⟩ := step_flag s w
    unfold runLoop
    simp only []
    cases hs : (loopBody s w).status with
    | running =>
      simp only []
      obtain ⟨i1, i2⟩ := ih (loopBody s w).session (loopBody s w).world
      constructor
      · rw [i1, h1]
        rfl
      · intro e he
        rcases List.mem_cons.1 he with rfl | he
        · exact h2
        · exact i2 e he
    | exited =>
      simp only []
      constructor
      · rw [h1]
        rfl
      · intro e he
        rw [List.mem_singleton] at he
        rw [he]
        exact h2
    | fatal =>
      simp only []
      constructor
      · rw [h1]
        rfl
      · intro e he
        rw [List.mem_singleton] at he
        rw [he]
        exact h2
    | panicked =>
      simp only []
      constructor
      · rw [h1]
        rfl
      · intro e he
        rw [List.mem_singleton] at he
        rw [he]
        exact h2

theorem flagAfterAll_iff (steps : List (List Event))
    (hex : ∀ e ∈ steps, ¬ (isDisable e = true ∧ isAcceptAlways e = true)) (b : Bool) :
    flagAfterAll b steps = true ↔
      (b = true ∧ ∀ e ∈ steps, isDisable e = false) ∨
      ∃ pre ev post, steps = pre ++ ev :: post ∧ isAcceptAlways ev = true ∧
        ∀ e ∈ post, isDisable e = false := by
  induction steps generalizing b with
  | nil =>
    constructor
    · intro h
      exact Or.inl ⟨h, fun e he => by cases he⟩
    · rintro (⟨h, _⟩ | ⟨pre, ev, post, h, _⟩)
      · exact h
      · cases pre <;> cases h
  | cons e t ih =>
    have hex2 : ∀ x ∈ t, ¬ (isDisable x = true ∧ isAcceptAlways x = true) :=
      fun x hx => hex x (List.mem_cons_of_mem e hx)
    have hstep : flagAfterAll b (e :: t) = flagAfterAll (flagAfter b e) t := rfl
    rw [hstep, ih hex2]
    have he := hex e (List.mem_cons_self e t)
    constructor
    · rintro (⟨hb, hall⟩ | ⟨pre, ev, post, h, ha, hp⟩)
      · unfold flagAfter at hb
        cases hd : isDisable e with
        | true => rw [hd] at hb; simp at hb
        | false =>
          rw [hd] at hb
          cases hacc : isAcceptAlways e with
          | true => exact Or.inr ⟨[], e, t, rfl, hacc, hall⟩
          | false =>
            rw [hacc] at hb
            simp only [Bool.false_eq_true, if_false] at hb
            refine Or.inl ⟨hb, ?_⟩
            intro x hx
            rcases List.mem_cons.1 hx with rfl | hx
            · exact hd
            · exact hall x hx
      · exact Or.inr ⟨e :: pre, ev, post, by rw [h]; rfl, ha, hp⟩
    · rintro (⟨hb, hall⟩ | ⟨pre, ev, post, h, ha, hp⟩)
      · have hd := hall e (List.mem_cons_self e t)
        refine Or.inl ⟨?_, fun x hx => hall x (List.mem_cons_of_mem e hx)⟩
        unfold flagAfter
        rw [hd, hb]
        simp
      · cases pre with
        | nil =>
          obtain ⟨rfl, rfl⟩ := List.cons.inj h
          refine Or.inl ⟨?_, hp⟩
          have hd : isDisable e = false := by
            cases hd : isDisable e with
            | false => rfl
            | true => exact absurd ⟨hd, ha⟩ he
          unfold flagAfter
          rw [hd, ha]
          rfl
        | cons p ps =>
          obtain ⟨rfl, rfl⟩ := List.cons.inj h
          exact Or.inr ⟨ps, ev, post, rfl, ha, hp⟩

/-- C1: from `autoExecute = false`, after any number of loop iterations the
flag is true exactly when some iteration read an Accept-Always confirmation
(trimmed, lower-cased answer `x`) and no later iteration was the `//ask`
command; an iteration is the `//ask` command exactly when its trimmed input
line is `//ask`, and it leaves the flag false whatever it was; an iteration
with an Accept-Always confirmation leaves it true, and is a translation request
handled by the confirm variant (the flag was off) which returned true; every
other iteration leaves it as it was. -/
theorem autoExecute_invariant (n : Nat) (selectedModel : Str) (w : World) :
    ((runLoop n (initialSession selectedModel) w).1.session.alwaysExecute = true ↔
      ∃ pre ev post, (runLoop n (initialSession selectedModel) w).2 = pre ++ ev :: post ∧
        isAcceptAlways ev = true ∧ ∀ e ∈ post, isDisable e = false) ∧
    (∀ (s : Session) (v : World),
      (isDisable (loopBody s v).events = true ↔
        ∃ text rest, v.stdin = text :: rest ∧ trimSpace text = askCmd) ∧
      (isDisable (loopBody s v).events = true → (loopBody s v).session.alwaysExecute = false) ∧
      (isAcceptAlways (loopBody s v).events = true →
        (loopBody s v).session.alwaysExecute = true ∧ s.alwaysExecute = false ∧
        ∃ text rest p, v.stdin = text :: rest ∧ classify (trimSpace text) = .translate p ∧
          p ≠ [] ∧
          (handleIACommandConfirm { v with stdin := rest } s.selectedModel p).val = true) ∧
      (isDisable (loopBody s v).events = false → isAcceptAlways (loopBody s v).events = false →
        (loopBody s v).session.alwaysExecute = s.alwaysExecute)) := by
  constructor
  · obtain ⟨h1, h2⟩ := runLoop_flag n (initialSession selectedModel) w
    rw [h1, flagAfterAll_iff _ h2]
    constructor
    · rintro (⟨h, _⟩ | h)
      · cases h
      · exact h
    · exact Or.inr
  · intro s v
    obtain ⟨h1, h2, h3⟩ := step_flag s v
    refine ⟨h3, ?_, ?_, ?_⟩
    · intro hd
      rw [h1]
      unfold flagAfter
      rw [hd]
      rfl
    · intro ha
      have hd : isDisable (loopBody s v).events = false := by
        cases hd : isDisable (loopBody s v).events with
        | false => rfl
        | true => exact absurd ⟨hd, ha⟩ h2
      refine ⟨?_, step_accept s v ha⟩
      rw [h1]
      unfold flagAfter
      rw [hd, ha]
      rfl
    · intro hd ha
      rw [h1]
      unfold flagAfter
      rw [hd, ha]
      rfl

/-- C1 at a concrete session: the scenario of the specification (the request
`//list files` answered by `ls -la` in backticks and confirmed with `x`)
followed by a raw command turns the flag on; a following `//ask` turns it off. -/
theorem autoExecute_invariant_witness :
    (runLoop 2 (initialSession "m".toList)
      ⟨["//list files".toList, "x".toList, "pwd".toList, "//ask".toList], none, [],
        [some "`ls -la`".toList], [true, true], []⟩).1.session.alwaysExecute = true ∧
    (runLoop 3 (initialSession "m".toList)
      ⟨["//list files".toList, "x".toList, "pwd".toList, "//ask".toList], none, [],
        [some "`ls -la`".toList], [true, true], []⟩).1.session.alwaysExecute = false := by
  constructor
  · exact (autoExecute_invariant 2 "m".toList
      ⟨["//list files".toList, "x".toList, "pwd".toList, "//ask".toList], none, [],
        [some "`ls -la`".toList], [true, true], []⟩).1.2
      ⟨[],
        (runLoop 2 (initialSession "m".toList)
          ⟨["//list files".toList, "x".toList, "pwd".toList, "//ask".toList], none, [],
            [some "`ls -la`".toList], [true, true], []⟩).2.headD [],
        (runLoop 2 (initialSession "m".toList)
          ⟨["//list files".toList, "x".toList, "pwd".toList, "//ask".toList], none, [],
            [some "`ls -la`".toList], [true, true], []⟩).2.tail,
        rfl, by decide, by decide⟩
  · decide

/-! ## What reaches the backend and the shell -/

theorem prompts_chooseModel (w : World) : prompts (chooseModel w).events = [] := by
  unfold prompts
  rw [List.filterMap_eq_nil_iff]
  intro e he
  rcases chooseModel_events w e he with rfl | ⟨l, rfl⟩ | rfl <;> rfl

theorem prompts_append (a b : List Event) : prompts (a ++ b) = prompts a ++ prompts b := by
  simp [prompts, List.filterMap_append]

theorem prompts_warmUp (w : World) (m : Str) : prompts (warmUpModel w m).events = [hola] := by
  unfold warmUpModel
  split <;> rfl

theorem prompts_auto (w : World) (m p : Str) :
    prompts (handleIACommandAuto w m p).events = [systemPrompt ++ p] := by
  rcases (auto_cases w m p).2 with ⟨_, h⟩ | ⟨response, _, h | h⟩ <;> rw [h] <;> rfl

theorem prompts_confirm (w : World) (m p : Str) :
    prompts (handleIACommandConfirm w m p).events = [systemPrompt ++ p] := by
  rcases confirm_cases w m p with ⟨_, _, _, he⟩ | ⟨response, _, ⟨_, _, he⟩ | ⟨text, rest, tail, _, _, he, ht⟩⟩
  · rw [he]; rfl
  · rw [he]; rfl
  · rw [he]
    rcases ht with ⟨_, _, h | h⟩ | ⟨_, _, h | h⟩ | ⟨_, _, _, h⟩ <;> rw [h] <;> rfl

theorem generate_with_stdin (w : World) (rest : List Str) :
    ({ w with stdin := rest } : World).generate.1 = w.generate.1 := by
  unfold World.generate
  cases w.gens <;> rfl

theorem ia_not_cd (input : Str) (h : hasPrefix input iaPrefix = true) :
    ¬ cdPrefix <+: input := by
  intro hcd
  rw [hasPrefix_iff] at h
  obtain ⟨t, rfl⟩ := h
  obtain ⟨u, hu⟩ := hcd
  have h2 : some (Char.ofNat 99) = some (Char.ofNat 47) := congrArg List.head? hu
  exact absurd h2 (by decide)

theorem classify_translate (input : Str) (hpre : hasPrefix input iaPrefix = true)
    (hm : input ≠ modelCmd) (ha : input ≠ askCmd) :
    classify input = .translate (trimSpace (trimPrefix input iaPrefix)) := by
  unfold classify trimPrefix
  rw [if_neg (ia_not_cd input hpre), if_neg hm, if_neg ha, if_pos ((hasPrefix_iff _ _).1 hpre),
    if_pos hpre]
  rfl

/-- C4: when the input line is a translation request with a non-empty prompt
and the backend generation call fails, the iteration runs no shell command,
leaves `selectedModel` and `alwaysExecute` as they were, reports the error, and
reads nothing beyond the input line, in auto mode and in ask mode alike; the
two handlers themselves run nothing and read nothing, and the confirm variant
returns false. -/
theorem backend_error_no_effect (s : Session) (w : World) (text : Str) (rest : List Str)
    (hstdin : w.stdin = text :: rest)
    (hpre : hasPrefix (trimSpace text) iaPrefix = true)
    (hm : trimSpace text ≠ modelCmd) (ha : trimSpace text ≠ askCmd)
    (hp : trimSpace (trimPrefix (trimSpace text) iaPrefix) ≠ [])
    (hgen : w.generate.1 = none) :
    (loopBody s w).status = .running ∧
    (loopBody s w).session.selectedModel = s.selectedModel ∧
    (loopBody s w).session.alwaysExecute = s.alwaysExecute ∧
    (loopBody s w).world.stdin = rest ∧
    (loopBody s w).events =
      [.readInput (some text),
       .generate s.selectedModel
         (systemPrompt ++ trimSpace (trimPrefix (trimSpace text) iaPrefix)),
       .say .backendError] ∧
    execs (loopBody s w).events = [] ∧
    (∀ m p : Str, execs (handleIACommandAuto w m p).events = [] ∧
      (handleIACommandAuto w m p).world.stdin = w.stdin) ∧
    (∀ m p : Str, (handleIACommandConfirm w m p).val = false ∧
      execs (handleIACommandConfirm w m p).events = [] ∧
      (handleIACommandConfirm w m p).world.stdin = w.stdin) := by
  have hne : trimSpace text ≠ [] := by
    intro h
    rw [h] at hpre
    exact absurd hpre (by decide)
  have hgen2 : ({ w with stdin := rest } : World).generate.1 = none :=
    (generate_with_stdin w rest).trans hgen
  have hstep : (loopBody s w).status = .running ∧
      (loopBody s w).session.selectedModel = s.selectedModel ∧
      (loopBody s w).session.alwaysExecute = s.alwaysExecute ∧
      (loopBody s w).world.stdin = rest ∧
      (loopBody s w).events =
        [.readInput (some text),
         .generate s.selectedModel
           (systemPrompt ++ trimSpace (trimPrefix (trimSpace text) iaPrefix)),
         .say .backendError] := by
    rw [loopBody_eq_handleClass s w text rest hstdin hne, classify_translate _ hpre hm ha]
    simp only [handleClass, hp, if_false]
    by_cases hauto : s.alwaysExecute = true
    · rw [if_pos hauto]
      obtain ⟨hs, ⟨_, he⟩ | ⟨response, hr, _⟩⟩ := auto_cases { w with stdin := rest }
        s.selectedModel (trimSpace (trimPrefix (trimSpace text) iaPrefix))
      · simp only [he, hs]
        exact ⟨trivial, trivial, trivial, trivial, trivial⟩
      · rw [hgen2] at hr
        cases hr
    · rw [if_neg hauto]
      rcases confirm_cases { w with stdin := rest } s.selectedModel
        (trimSpace (trimPrefix (trimSpace text) iaPrefix)) with
        ⟨_, hv, hs, he⟩ | ⟨response, hr, _⟩
      · simp only [he, hs, hv, Bool.false_eq_true, if_false]
        exact ⟨trivial, trivial, trivial, trivial, trivial⟩
      · rw [hgen2] at hr
        cases hr
  obtain ⟨h1, h2, h3, h4, h5⟩ := hstep
  refine ⟨h1, h2, h3, h4, h5, by rw [h5]; rfl, ?_, ?_⟩
  · intro m p
    obtain ⟨hs, ⟨_, he⟩ | ⟨response, hr, _⟩⟩ := auto_cases w m p
    · rw [he]
      exact ⟨rfl, hs⟩
    · rw [hgen] at hr
      cases hr
  · intro m p
    rcases confirm_cases w m p with ⟨_, hv, hs, he⟩ | ⟨response, hr, _⟩
    · rw [he]
      exact ⟨hv, rfl, hs⟩
    · rw [hgen] at hr
      cases hr

/-- C4 at a concrete input: the request `//show date` in ask mode with a
failing backend; the confirmation line `x` that follows is left unread and the
flag stays off. -/
theorem backend_error_no_effect_witness :
    (loopBody (initialSession "m".toList)
      ⟨["//show date".toList, "x".toList], none, [], [none], [], []⟩).session.alwaysExecute =
      false ∧
    (loopBody (initialSession "m".toList)
      ⟨["//show date".toList, "x".toList], none, [], [none], [], []⟩).world.stdin =
      ["x".toList] ∧
    execs (loopBody (initialSession "m".toList)
      ⟨["//show date".toList, "x".toList], none, [], [none], [], []⟩).events = [] := by
  obtain ⟨_, _, h3, h4, _, h6, _⟩ :=
    backend_error_no_effect (initialSession "m".toList)
      ⟨["//show date".toList, "x".toList], none, [], [none], [], []⟩
      "//show date".toList ["x".toList] rfl (by decide) (by decide) (by decide) (by decide) rfl
  exact ⟨h3, h4, h6⟩

/-- C7: on a trimmed, non-empty input line the loop body does what the
ordered first-match classification prescribes (prefix `cd `, then `//model`,
then `//ask`, then prefix `//` with the trimmed remainder as prompt, then raw
execution of the trimmed line); an empty prompt causes no backend call and no
shell run and leaves the session as it was; a non-empty prompt is sent once,
after the preamble; the line `//model` sends only the warm-up prompt and the
line `//ask` sends nothing; `//ask me` and `// model` are translation
requests. -/
theorem dispatch_is_classification (s : Session) (w : World) (text : Str) (rest : List Str)
    (hstdin : w.stdin = text :: rest) (hne : trimSpace text ≠ []) :
    loopBody s w =
      handleClass s { w with stdin := rest } (.readInput (some text))
        (classify (trimSpace text)) ∧
    (classify (trimSpace text) = .translate [] →
      (loopBody s w).status = .running ∧
      (loopBody s w).session = { s with isFirstLoop := false } ∧
      (loopBody s w).world = { w with stdin := rest } ∧
      (loopBody s w).events = [.readInput (some text), .say .emptyPrompt]) ∧
    (∀ p : Str, classify (trimSpace text) = .translate p → p ≠ [] →
      prompts (loopBody s w).events = [systemPrompt ++ p]) ∧
    (∀ line : Str, classify (trimSpace text) = .rawExec line →
      line = trimSpace text ∧ prompts (loopBody s w).events = [] ∧
      execs (loopBody s w).events = [trimSpace text]) ∧
    (trimSpace text = modelCmd → ∀ q ∈ prompts (loopBody s w).events, q = hola) ∧
    (trimSpace text = askCmd → prompts (loopBody s w).events = []) ∧
    classify modelCmd = .reselect ∧ classify askCmd = .disableAuto ∧
    classify "//ask me".toList = .translate "ask me".toList ∧
    classify "// model".toList = .translate "model".toList := by
  have hl := loopBody_eq_handleClass s w text rest hstdin hne
  refine ⟨hl, ?_, ?_, ?_, ?_, ?_, by decide, by decide, by decide, by decide⟩
  · intro hc
    rw [hl, hc]
    exact ⟨rfl, rfl, rfl, rfl⟩
  · intro p hc hp
    rw [hl, hc]
    simp only [handleClass, hp, if_false]
    split_ifs
    · exact prompts_auto _ _ _
    · exact prompts_confirm _ _ _
    · exact prompts_confirm _ _ _
  · intro line hc
    have hline : line = trimSpace text := by
      unfold classify at hc
      split_ifs at hc
      exact (InputClass.rawExec.inj hc).symm
    rw [hl, hc, hline]
    exact ⟨rfl, rfl, rfl⟩
  · intro hm q hq
    have hc : classify (trimSpace text) = .reselect := by
      rw [hm]
      decide
    rw [hl, hc] at hq
    simp only [handleClass] at hq
    split at hq
    · have : prompts (Event.readInput (some text) ::
          ((chooseModel { w with stdin := rest }).events ++
            (warmUpModel (chooseModel { w with stdin := rest }).world ‹Str›).events)) = [hola] := by
        rw [← List.singleton_append, prompts_append, prompts_append, prompts_chooseModel,
          prompts_warmUp]
        rfl
      exact List.mem_singleton.1 (by rw [← this]; exact hq)
    · have : prompts (Event.readInput (some text) ::
          (chooseModel { w with stdin := rest }).events) = [] := by
        rw [← List.singleton_append, prompts_append, prompts_chooseModel]
        rfl
      have hq2 : q ∈ ([] : List Str) := by rw [← this]; exact hq
      cases hq2
    · have : prompts (Event.readInput (some text) ::
          (chooseModel { w with stdin := rest }).events) = [] := by
        rw [← List.singleton_append, prompts_append, prompts_chooseModel]
        rfl
      have hq2 : q ∈ ([] : List Str) := by rw [← this]; exact hq
      cases hq2
  · intro ha
    have hc : classify (trimSpace text) = .disableAuto := (classify_disable _).2 ha
    rw [hl, hc]
    rfl

/-- C7 at a concrete input: the line `//ask me` in ask mode is sent to the
backend as the prompt `ask me` after the preamble. -/
theorem dispatch_is_classification_witness :
    prompts (loopBody (initialSession "m".toList)
      ⟨["//ask me".toList, "n".toList], none, [], [some "ls".toList], [], []⟩).events =
      [systemPrompt ++ "ask me".toList] :=
  (dispatch_is_classification (initialSession "m".toList)
    ⟨["//ask me".toList, "n".toList], none, [], [some "ls".toList], [], []⟩
    "//ask me".toList ["n".toList] rfl (by decide)).2.2.1 "ask me".toList (by decide) (by decide)

theorem cd_argument_nonempty (text : Str)
    (h : hasPrefix (trimSpace text) cdPrefix = true) :
    trimSpace (trimPrefix (trimSpace text) cdPrefix) ≠ [] := by
  have ht := trimmed_trimSpace text
  obtain ⟨t, hcd⟩ := (hasPrefix_iff _ _).1 h
  have hdrop : trimPrefix (trimSpace text) cdPrefix = t := by
    unfold trimPrefix
    rw [if_pos h, ← hcd]
    exact List.drop_left _ _
  rw [hdrop]
  have htne : t ≠ [] := by
    intro h0
    rw [h0, List.append_nil] at hcd
    have := ht.2 (Char.ofNat 32) (by rw [← hcd]; rfl)
    exact absurd this (by decide)
  have hlast : isSpace (t.getLast htne) = false := by
    apply ht.2
    rw [← hcd, List.getLast?_append_of_ne_nil _ htne, List.getLast?_eq_getLast _ htne]
  intro h0
  unfold trimSpace at h0
  rw [List.rdropWhile_eq_nil_iff] at h0
  cases hd : t.dropWhile isSpace with
  | nil =>
    rw [List.dropWhile_eq_nil_iff] at hd
    have := hd (t.getLast htne) (List.getLast_mem htne)
    rw [hlast] at this
    exact Bool.false_ne_true this
  | cons a u =>
    have h1 := dropWhile_head_not isSpace t a (by rw [hd]; rfl)
    have h2 := h0 a (by rw [hd]; exact List.mem_cons_self a u)
    rw [h1] at h2
    exact Bool.false_ne_true h2

/-- C8: an input line whose trimmed text is `cd` (the line `cd` alone, or `cd`
followed only by white space) is not handled as a directory change: no
`os.Chdir` call is made and the text `cd` is handed to the shell. The test for
an empty argument in the directory-change branch can never hold. -/
theorem cd_alone_goes_to_shell (s : Session) (w : World) (text : Str) (rest : List Str)
    (hstdin : w.stdin = text :: rest) (hcd : trimSpace text = "cd".toList) :
    (loopBody s w).events = [.readInput (some text), .exec "cd".toList] ∧
    chdirs (loopBody s w).events = [] ∧
    (∀ line : Str, hasPrefix (trimSpace line) cdPrefix = true →
      trimSpace (trimPrefix (trimSpace line) cdPrefix) ≠ []) := by
  have hne : trimSpace text ≠ [] := by
    rw [hcd]
    decide
  have hc : classify (trimSpace text) = .rawExec "cd".toList := by
    rw [hcd]
    decide
  have he : (loopBody s w).events = [.readInput (some text), .exec "cd".toList] := by
    rw [loopBody_eq_handleClass s w text rest hstdin hne, hc]
    rfl
  refine ⟨he, ?_, cd_argument_nonempty⟩
  rw [he]
  rfl

/-- C8 at the failing inputs: `cd` followed by spaces goes to the shell and
changes no directory, while `cd ~` does change to the home directory. -/
theorem cd_alone_goes_to_shell_witness :
    (loopBody (initialSession "m".toList)
      ⟨["cd   ".toList], some "/home/u".toList, [], [], [true], [true]⟩).events =
      [.readInput (some "cd   ".toList), .exec "cd".toList] ∧
    (loopBody (initialSession "m".toList)
      ⟨["cd ~".toList], some "/home/u".toList, [], [], [true], [true]⟩).events =
      [.readInput (some "cd ~".toList), .chdir "/home/u".toList] :=
  ⟨(cd_alone_goes_to_shell (initialSession "m".toList)
      ⟨["cd   ".toList], some "/home/u".toList, [], [], [true], [true]⟩
      "cd   ".toList [] rfl (by decide)).1, by decide⟩

end TerminalIA
